import Mathlib

/-!
Verification development for the portfolio analyzer repository
(src/app.py, src/yahoo_interface.py, src/portfolio_ai_analyzer.py).

Modelling conventions, stated once for the whole file:
* Python floats are embedded as exact rationals.  Where IEEE special
  values are observable (the pandas division by a zero total in the
  aggregation), values are wrapped in an explicit type with NaN and
  signed infinities.  NaN option fields from the provider are embedded
  as Option.none (lastPrice) or as 0 (bid and ask, which the source only
  ever consults through strictly positive guards, so NaN and 0 are
  observationally identical there).
* Characters are modelled at ASCII granularity: the regex classes \d
  and \s are embedded as the ASCII digit and whitespace classes.
* Calendar dates are embedded as integer day numbers via the standard
  civil-from-days correspondence; the strptime round trips of the
  source preserve exactly this information.
* Exceptions raised by the market data collaborator (yfinance) are
  embedded as Except.error values; code of the repository that catches
  them is embedded as a total function matching on the Except.
-/

set_option maxRecDepth 10000

/-- ASCII whitespace, the characters the Python regex class \s and
str.split recognise on ASCII input. -/
def isSpaceChar (c : Char) : Bool :=
  c = ' ' || c = '\t' || c = '\n' || c = '\r' || c = '\x0b' || c = '\x0c'

/-- ASCII uppercase letters, the regex class [A-Z]. -/
def isUpperAZ (c : Char) : Bool :=
  'A' ≤ c && c ≤ 'Z'

/-- ASCII digits, the regex class \d on ASCII input. -/
def isDigitChar (c : Char) : Bool :=
  '0' ≤ c && c ≤ '9'

/-- Numeric value of an ASCII digit. -/
def digitVal (c : Char) : Nat :=
  c.toNat - '0'.toNat

/-- How a non whitespace character c extends the already computed split
fs of the remaining input rest: it either starts a fresh token (at a
whitespace boundary or at the end) or is prepended to the first token. -/
def pySplitCons (c : Char) (fs : List (List Char)) (rest : List Char) : List (List Char) :=
  match fs, rest with
  | f :: fs, r :: _ => if isSpaceChar r then [c] :: f :: fs else (c :: f) :: fs
  | _, _ => [[c]]

/-- Embeds the Python str.split() with no arguments: splits on runs of
whitespace and never yields empty tokens. -/
def pySplit : List Char → List (List Char)
  | [] => []
  | c :: rest =>
    if isSpaceChar c then pySplit rest else pySplitCons c (pySplit rest) rest

/-- Consumes one or more characters satisfying p (greedily), the regex
piece p+ for a character class p; returns the remaining suffix. -/
def chompClass1 (p : Char → Bool) : List Char → Option (List Char)
  | [] => none
  | c :: rest => if p c then some (rest.dropWhile p) else none

/-- Consumes one literal character. -/
def chompLit (x : Char) : List Char → Option (List Char)
  | [] => none
  | c :: rest => if c = x then some rest else none

/-- Consumes exactly n digits, the regex piece \d{n}. -/
def chompDigitsN : Nat → List Char → Option (List Char)
  | 0, l => some l
  | _ + 1, [] => none
  | n + 1, c :: rest => if isDigitChar c then chompDigitsN n rest else none

/-- Consumes an optional literal dot, the regex piece dot-question. -/
def skipOptDot : List Char → List Char
  | '.' :: rest => rest
  | l => l

/-- Accepts exactly one final C or P, the regex piece [CP] followed by a
hard end of input. -/
def matchTail : List Char → Bool
  | [c] => c = 'C' || c = 'P'
  | _ => false

/-- Embeds the regex core of src/yahoo_interface.py line 54 and
src/app.py line 20, anchored at the hard end of the string:
[A-Z]+ \s+ \d{2} / \d{2} / \d{4} \s+ \d+ dot? \d* \s+ [CP].
The character classes involved are pairwise disjoint, so the greedy
left-to-right scan is exactly the regex language. -/
def matchCore (l : List Char) : Bool :=
  ((chompClass1 isUpperAZ l).bind fun l1 =>
   (chompClass1 isSpaceChar l1).bind fun l2 =>
   (chompDigitsN 2 l2).bind fun l3 =>
   (chompLit '/' l3).bind fun l4 =>
   (chompDigitsN 2 l4).bind fun l5 =>
   (chompLit '/' l5).bind fun l6 =>
   (chompDigitsN 4 l6).bind fun l7 =>
   (chompClass1 isSpaceChar l7).bind fun l8 =>
   (chompClass1 isDigitChar l8).bind fun l9 =>
   chompClass1 isSpaceChar ((skipOptDot l9).dropWhile isDigitChar)).elim
    false matchTail

/-- Embeds _is_option_symbol of src/yahoo_interface.py (lines 44-55) and
is_option_symbol of src/app.py (lines 17-21): re.match of the pattern
against the whole string, where the Python dollar anchor matches at the
end of the string or immediately before a single final newline. -/
def is_option_symbol (s : String) : Bool :=
  matchCore s.data ||
    (match s.data.getLast? with
     | some c => c = '\n' && matchCore s.data.dropLast
     | none => false)

/-- Modelled from the spec wording of the contract grammar: an uppercase
alphabetic root of one or more letters. -/
def isRootToken (t : List Char) : Bool :=
  !t.isEmpty && t.all isUpperAZ

/-- Modelled from the spec wording: a date token of the literal form
MM/DD/YYYY, two digit month, two digit day, four digit year, with no
calendar validity check at this stage. -/
def isDateToken : List Char → Bool
  | [m1, m2, a, d1, d2, b, y1, y2, y3, y4] =>
    isDigitChar m1 && isDigitChar m2 && a = '/' && isDigitChar d1 &&
      isDigitChar d2 && b = '/' && isDigitChar y1 && isDigitChar y2 &&
      isDigitChar y3 && isDigitChar y4
  | _ => false

/-- Modelled from the spec wording: a strike token that is a non-negative
number, one or more digits with an optional fractional part (a decimal
point followed by zero or more further digits, mirroring the source
pattern). -/
def isStrikeToken (t : List Char) : Bool :=
  match t with
  | [] => false
  | c :: _ =>
    isDigitChar c &&
      (match t.dropWhile isDigitChar with
       | [] => true
       | d :: rest => d = '.' && rest.all isDigitChar)

/-- Modelled from the spec wording: a single trailing letter C or P. -/
def isRightToken (t : List Char) : Bool :=
  t = ['C'] || t = ['P']

/-- No leading and no trailing whitespace: the spec grammar consists of
the four tokens and their separators and nothing else. -/
def noEdgeWs (l : List Char) : Bool :=
  (match l.head? with
   | some c => !isSpaceChar c
   | none => false) &&
  (match l.getLast? with
   | some c => !isSpaceChar c
   | none => false)

/-- Modelled from the spec wording of section 4.1 and section 6: the
string consists exactly of four whitespace separated tokens, a root, a
date, a strike and a right letter, with nothing before or after. -/
def contractGrammarL (l : List Char) : Bool :=
  noEdgeWs l &&
    (match pySplit l with
     | [r, d, k, t] => isRootToken r && isDateToken d && isStrikeToken k && isRightToken t
     | _ => false)

/-- The spec side contract grammar on strings. -/
def contractGrammar (s : String) : Bool :=
  contractGrammarL s.data

/-- Embeds the strptime field patterns for the month (one or two digits,
value 1 to 12) and the day (one or two digits, value 1 to maxv): the
CPython strptime regex alternatives admit a two digit form in range or a
single nonzero digit, and a two digit reading that fails its range can
never be rescued by backtracking here because the following character of
the format is a slash, which is not a digit. -/
def parse1or2 (maxv : Nat) : List Char → Option (Nat × List Char)
  | c1 :: c2 :: rest =>
    if isDigitChar c1 && isDigitChar c2 then
      let v := digitVal c1 * 10 + digitVal c2
      if 1 ≤ v && v ≤ maxv then some (v, rest) else none
    else if isDigitChar c1 && c1 ≠ '0' then some (digitVal c1, c2 :: rest)
    else none
  | [c1] => if isDigitChar c1 && c1 ≠ '0' then some (digitVal c1, []) else none
  | [] => none

/-- Embeds the strptime %Y field: exactly four digits, which must also
exhaust the token (strptime rejects unconverted trailing data). -/
def parseYear4 : List Char → Option Nat
  | [y1, y2, y3, y4] =>
    if isDigitChar y1 && isDigitChar y2 && isDigitChar y3 && isDigitChar y4 then
      some (digitVal y1 * 1000 + digitVal y2 * 100 + digitVal y3 * 10 + digitVal y4)
    else none
  | _ => none

/-- Gregorian leap year rule, as used by the Python datetime module. -/
def isLeapYear (y : Nat) : Bool :=
  (y % 4 = 0 && y % 100 ≠ 0) || y % 400 = 0

/-- Number of days in a month, as validated by the datetime constructor. -/
def daysInMonth (y m : Nat) : Nat :=
  if m = 2 then (if isLeapYear y then 29 else 28)
  else if m = 4 || m = 6 || m = 9 || m = 11 then 30
  else 31

/-- Day number of a civil date (days since 1970-01-01), the standard
days-from-civil computation; date subtraction in the source measures
exactly the difference of these numbers in days. -/
def daysFromCivil (y m d : ℤ) : ℤ :=
  let y2 : ℤ := if m ≤ 2 then y - 1 else y
  let era : ℤ := (if 0 ≤ y2 then y2 else y2 - 399) / 400
  let yoe : ℤ := y2 - era * 400
  let mp : ℤ := if 2 < m then m - 3 else m + 9
  let doy : ℤ := (153 * mp + 2) / 5 + d - 1
  let doe : ℤ := yoe * 365 + yoe / 4 - yoe / 100 + doy
  era * 146097 + doe - 719468

/-- Embeds datetime.strptime(token, percent-m slash percent-d slash
percent-Y) followed by the datetime validity check: month 1 to 12, day
within the month, four digit year of at least 1; yields the day number
of the parsed date. -/
def parseDateMDY (l : List Char) : Option ℤ :=
  match parse1or2 12 l with
  | none => none
  | some (m, r1) =>
    match chompLit '/' r1 with
    | none => none
    | some r2 =>
      match parse1or2 31 r2 with
      | none => none
      | some (d, r3) =>
        match chompLit '/' r3 with
        | none => none
        | some r4 =>
          match parseYear4 r4 with
          | none => none
          | some y =>
            if 1 ≤ y && d ≤ daysInMonth y m then
              some (daysFromCivil (y : ℤ) (m : ℤ) (d : ℤ))
            else none

/-- Decimal value of a digit string read most significant first. -/
def digitsToNat (ds : List Char) : Nat :=
  ds.foldl (fun a c => a * 10 + digitVal c) 0

/-- Magnitude part of the Python float() literal forms used here:
digits, digits dot digits, digits dot, dot digits.  The exotic float()
forms (exponents, underscores, inf, nan) are not modelled; no claim
depends on them. -/
def pyFloatMag (l : List Char) : Option ℚ :=
  let ds := l.takeWhile isDigitChar
  match l.dropWhile isDigitChar with
  | [] => if ds.isEmpty then none else some (digitsToNat ds : ℚ)
  | c :: r2 =>
    if c = '.' && r2.all isDigitChar && !(ds.isEmpty && r2.isEmpty) then
      some ((digitsToNat ds : ℚ) + (digitsToNat r2 : ℚ) / (10 : ℚ) ^ r2.length)
    else none

/-- Embeds float(strike_str) on the decimal forms, with an optional sign. -/
def pyFloat : List Char → Option ℚ
  | '+' :: rest => pyFloatMag rest
  | '-' :: rest => (pyFloatMag rest).map (fun q => -q)
  | l => pyFloatMag l

/-- Embeds _parse_option_symbol of src/yahoo_interface.py (lines 57-84)
and parse_option_symbol of src/app.py: split on whitespace, demand
exactly four parts, parse the date strictly and the strike as a float,
and uppercase the right token without validating it; any failure is
caught and collapsed to None. -/
def _parse_option_symbol (symbol : String) : Option (String × ℤ × ℚ × String) :=
  match pySplit symbol.data with
  | [u, d, k, t] =>
    match parseDateMDY d with
    | none => none
    | some day =>
      match pyFloat k with
      | none => none
      | some strike => some (String.mk u, day, strike, String.mk (t.map Char.toUpper))
  | _ => none

/-- One record of a provider option chain side.  The lastPrice field is
None for a missing or NaN value (the source tests pd.isna on it); the
bid and ask fields use 0 for a missing or NaN value, which the source
only ever consults through strictly positive guards, so this is
observationally exact. -/
structure OptionRow where
  strike : ℚ
  lastPrice : Option ℚ
  bid : ℚ
  ask : ℚ
deriving DecidableEq

/-- An option chain as returned by ticker.option_chain: a calls side and
a puts side. -/
structure OptChain where
  calls : List OptionRow
  puts : List OptionRow
deriving DecidableEq

/-- The market data collaborator (yfinance), with every call allowed to
fail: history models ticker.history (the Close column), chainAt models
ticker.option_chain for a root and an expiration day number, and
expirations models ticker.options already parsed to day numbers (a
malformed expiration string, which would make strptime raise inside the
guarded region of the source, is modelled as an expirations error). -/
structure Yf where
  history : String → Except String (List ℚ)
  chainAt : String → ℤ → Except String OptChain
  expirations : String → Except String (List ℤ)

/-- Embeds the bid and ask fallback of src/yahoo_interface.py lines
172-182: midpoint when both are strictly positive, else whichever one is
strictly positive, else no price. -/
def fallbackBA (r : OptionRow) : Option ℚ :=
  if 0 < r.bid ∧ 0 < r.ask then some ((r.bid + r.ask) / 2)
  else if 0 < r.bid then some r.bid
  else if 0 < r.ask then some r.ask
  else none

/-- Embeds the price derivation of src/yahoo_interface.py lines 167-182:
the last traded price is used whenever it is present (not NaN) and not
equal to zero, otherwise the bid and ask fallback applies. -/
def derivePrice (r : OptionRow) : Option ℚ :=
  match r.lastPrice with
  | none => fallbackBA r
  | some p => if p = 0 then fallbackBA r else some p

/-- Embeds the strike filter of src/yahoo_interface.py line 162: rows
whose strike differs from the requested strike by strictly less than
0.01. -/
def matchingOptions (rows : List OptionRow) (strike : ℚ) : List OptionRow :=
  rows.filter fun r => decide (|r.strike - strike| < 1 / 100)

/-- Embeds the side selection of src/yahoo_interface.py lines 156-159:
the calls side when the parsed right token equals C, the puts side for
anything else. -/
def sideOf (c : OptChain) (optType : String) : List OptionRow :=
  if optType = "C" then c.calls else c.puts

/-- Error strings of the source f-strings; the Python float formatting
of the strike is abstracted by toString of the rational. -/
def invalidFormatMsg (symbol : String) : String :=
  "Invalid option format: " ++ symbol

/-- Error string of src/yahoo_interface.py line 136. -/
def noOptionDataMsg (underlying : String) : String :=
  "No option data available for " ++ underlying

/-- Error string of src/yahoo_interface.py line 153. -/
def noExpirationMsg (symbol : String) : String :=
  "Could not find option expiration date for " ++ symbol

/-- Error string of src/yahoo_interface.py line 165, naming the symbol
and the requested strike. -/
def strikeNotFoundMsg (symbol : String) (strike : ℚ) : String :=
  "Option " ++ symbol ++ " not found (strike " ++ toString strike ++ " may not exist)"

/-- Error string of src/yahoo_interface.py line 182. -/
def noPriceDataMsg (symbol : String) : String :=
  "Option " ++ symbol ++ " has no price data available"

/-- Error string of the outer exception handler, src/yahoo_interface.py
line 190. -/
def fetchErrMsg (symbol : String) (e : String) : String :=
  "Error fetching option " ++ symbol ++ ": " ++ e

/-- Error string of src/yahoo_interface.py line 103. -/
def noStockDataMsg (symbol : String) : String :=
  "No data available for " ++ symbol

/-- Embeds src/yahoo_interface.py lines 156-187: side selection, strike
filter, first matching row, price derivation, and the contract
multiplier of 100 applied to the derived price. -/
def useChain (symbol : String) (strike : ℚ) (optType : String) (c : OptChain) :
    Option ℚ × Option String :=
  match (matchingOptions (sideOf c optType) strike).head? with
  | none => (none, some (strikeNotFoundMsg symbol strike))
  | some row =>
    match derivePrice row with
    | none => (none, some (noPriceDataMsg symbol))
    | some p => (some (p * 100), none)

/-- Embeds the loop of src/yahoo_interface.py lines 143-148 after its
first iteration: running minimal distance m attained first at b, updated
only on a strictly smaller distance. -/
def closestFrom (day : ℤ) (m : ℤ) (b : ℤ) : List ℤ → ℤ × ℤ
  | [] => (m, b)
  | e :: rest =>
    if |e - day| < m then closestFrom day (|e - day|) e rest
    else closestFrom day m b rest

/-- Embeds the closest expiration search of src/yahoo_interface.py lines
139-148: None on an empty list, else the first expiration attaining the
minimal absolute day distance. -/
def closestExp (day : ℤ) : List ℤ → Option ℤ
  | [] => none
  | e :: rest => some (closestFrom day (|e - day|) e rest).2

/-- The continuation of the fallback branch, src/yahoo_interface.py
lines 150-153 together with the outer handler: fetch the chain at the
selected expiration, a provider failure there being caught by the outer
except. -/
def chainOutcome (y : Yf) (symbol u : String) (strike : ℚ) (optType : String) (e : ℤ) :
    Option ℚ × Option String :=
  match y.chainAt u e with
  | .ok c => useChain symbol strike optType c
  | .error err => (none, some (fetchErrMsg symbol err))

/-- Embeds _fetch_option_price of src/yahoo_interface.py lines 107-190:
parse, exact chain lookup, expiration fallback, and chain use; every
collaborator failure is returned as data. -/
def _fetch_option_price (y : Yf) (symbol : String) : Option ℚ × Option String :=
  match _parse_option_symbol symbol with
  | none => (none, some (invalidFormatMsg symbol))
  | some (u, day, strike, optType) =>
    match y.chainAt u day with
    | .ok c => useChain symbol strike optType c
    | .error _ =>
      match y.expirations u with
      | .error e => (none, some (fetchErrMsg symbol e))
      | .ok exps =>
        if exps.isEmpty then (none, some (noOptionDataMsg u))
        else
          match closestExp day exps with
          | some ce => chainOutcome y symbol u strike optType ce
          | none => (none, some (noExpirationMsg symbol))

/-- Embeds _fetch_stock_price of src/yahoo_interface.py lines 86-105:
last Close of a nonempty one day history, else an error. -/
def _fetch_stock_price (y : Yf) (symbol : String) : Option ℚ × Option String :=
  match y.history symbol with
  | .error e => (none, some e)
  | .ok closes =>
    match closes.getLast? with
    | some c => (some c, none)
    | none => (none, some (noStockDataMsg symbol))

/-- Embeds fetch_price of src/yahoo_interface.py lines 14-27: dispatch
on the classifier. -/
def fetch_price (y : Yf) (symbol : String) : Option ℚ × Option String :=
  if is_option_symbol symbol then _fetch_option_price y symbol
  else _fetch_stock_price y symbol

/-- The chain the resolver ends up using for a parsed contract, when the
resolution reaches one: the exact date chain, or the chain at the
closest available expiration. -/
def usedChain (y : Yf) (u : String) (day : ℤ) : Option OptChain :=
  match y.chainAt u day with
  | .ok c => some c
  | .error _ =>
    match y.expirations u with
    | .error _ => none
    | .ok exps =>
      if exps.isEmpty then none
      else
        match closestExp day exps with
        | some ce => (y.chainAt u ce).toOption
        | none => none

/-- A pandas scalar as observable in the aggregation: a finite value,
NaN, or a signed infinity. -/
inductive PandasVal where
  | num (q : ℚ)
  | nan
  | posInf
  | negInf
deriving DecidableEq

/-- The finite value of a pandas scalar, 0 for the special values. -/
def PandasVal.val : PandasVal → ℚ
  | .num q => q
  | _ => 0

/-- Whether a pandas scalar is a finite number. -/
def PandasVal.isNum : PandasVal → Bool
  | .num _ => true
  | _ => false

/-- IEEE division as performed by pandas on a Series: finite quotient
for a nonzero divisor, NaN for 0/0, signed infinity otherwise. -/
def pandasDiv (a b : ℚ) : PandasVal :=
  if b = 0 then (if a = 0 then .nan else if 0 < a then .posInf else .negInf)
  else .num (a / b)

/-- IEEE multiplication by a finite constant. -/
def pandasMul (v : PandasVal) (c : ℚ) : PandasVal :=
  match v with
  | .num q => .num (q * c)
  | .nan => .nan
  | .posInf => if 0 < c then .posInf else if c < 0 then .negInf else .nan
  | .negInf => if 0 < c then .negInf else if c < 0 then .posInf else .nan

/-- Rounding to the nearest integer with ties to even, the rounding mode
of the pandas round method. -/
def roundHalfEven (q : ℚ) : ℤ :=
  if q - (⌊q⌋ : ℚ) < 1 / 2 then ⌊q⌋
  else if 1 / 2 < q - (⌊q⌋ : ℚ) then ⌊q⌋ + 1
  else if ⌊q⌋ % 2 = 0 then ⌊q⌋ else ⌊q⌋ + 1

/-- Rounding to two decimal places, the round(2) of src/app.py line 208. -/
def round2 (q : ℚ) : ℚ :=
  (roundHalfEven (q * 100) : ℚ) / 100

/-- round(2) on a pandas scalar: NaN and the infinities are preserved. -/
def pandasRound2 (v : PandasVal) : PandasVal :=
  match v with
  | .num q => .num (round2 q)
  | x => x

/-- One cleaned input row: Symbol and Shares columns of src/app.py. -/
structure Holding where
  symbol : String
  shares : ℚ
deriving DecidableEq

/-- Embeds src/app.py lines 200-201: map the fetched prices over the
symbols and keep the rows whose price is present. -/
def retainedRows (holdings : List Holding) (prices : String → Option ℚ) :
    List (Holding × ℚ) :=
  holdings.filterMap fun h => (prices h.symbol).map fun p => (h, p)

/-- Embeds the Current Value column of src/app.py line 202. -/
def currentValue (hp : Holding × ℚ) : ℚ :=
  hp.1.shares * hp.2

/-- Embeds the total of src/app.py line 205. -/
def totalValue (holdings : List Holding) (prices : String → Option ℚ) : ℚ :=
  ((retainedRows holdings prices).map currentValue).sum

/-- Embeds the Percentage column of src/app.py line 208: the division by
the total is performed unconditionally, with pandas IEEE semantics, then
scaled by 100 and rounded to two decimals. -/
def percentageCol (holdings : List Holding) (prices : String → Option ℚ) :
    List PandasVal :=
  (retainedRows holdings prices).map fun hp =>
    pandasRound2 (pandasMul (pandasDiv (currentValue hp) (totalValue holdings prices)) 100)

/-- Embeds the grouped percentage of src/portfolio_ai_analyzer.py line
96: the division is guarded by a strictly positive total, otherwise the
percentage is defined as zero. -/
def groupPct (value total : ℚ) : ℚ :=
  if 0 < total then value / total * 100 else 0

/-- The shared decomposition underlying both the regex and the spec
grammar: root, separator, date, separator, strike, separator, right
letter, with nothing else. -/
def ContractShape (l : List Char) : Prop :=
  ∃ t1 w1 dt w2 kt w3 c,
    l = t1 ++ w1 ++ dt ++ w2 ++ kt ++ w3 ++ [c] ∧
    t1 ≠ [] ∧ (∀ x ∈ t1, isUpperAZ x = true) ∧
    w1 ≠ [] ∧ (∀ x ∈ w1, isSpaceChar x = true) ∧
    isDateToken dt = true ∧
    w2 ≠ [] ∧ (∀ x ∈ w2, isSpaceChar x = true) ∧
    isStrikeToken kt = true ∧
    w3 ≠ [] ∧ (∀ x ∈ w3, isSpaceChar x = true) ∧
    (c = 'C' ∨ c = 'P')

/-- A provider for concrete checks: the exact date chain always
resolves to one call row at strike 380 with last price 1.10. -/
def wChain1 : OptChain :=
  ⟨[⟨380, some (11 / 10), 0, 0⟩], []⟩

/-- Provider whose exact date lookup always succeeds with wChain1. -/
def wYf1 : Yf :=
  ⟨fun _ => Except.error "offline", fun _ _ => Except.ok wChain1, fun _ => Except.ok []⟩

/-- A chain whose only call row has a far away strike. -/
def wChain8 : OptChain :=
  ⟨[⟨500, some 1, 0, 0⟩], []⟩

/-- Provider whose exact date lookup always succeeds with wChain8. -/
def wYf8 : Yf :=
  ⟨fun _ => Except.error "offline", fun _ _ => Except.ok wChain8, fun _ => Except.ok []⟩

/-- Provider with no chain at any exact date and two listed expirations,
seven days before and seven days after 2027-01-15. -/
def wYf5 : Yf :=
  ⟨fun _ => Except.error "offline", fun _ _ => Except.error "no chain at date",
   fun _ => Except.ok [daysFromCivil 2027 1 8, daysFromCivil 2027 1 22]⟩

/-- A price table resolving only AAPL, at 150. -/
def wPrices6 : String → Option ℚ :=
  fun s => if s = "AAPL" then some 150 else none

/-- A price table resolving A at 1 and B at 2. -/
def wPrices9 : String → Option ℚ :=
  fun s => if s = "A" then some 1 else if s = "B" then some 2 else none

/-- The canonical decomposition of a list at its dropWhile point. -/
theorem dropWhile_decomp (p : Char → Bool) (l : List Char) :
    ∃ t, l = t ++ l.dropWhile p ∧ (∀ c ∈ t, p c = true) ∧
      (∀ c, (l.dropWhile p).head? = some c → p c = false) := by
  induction l with
  | nil => exact ⟨[], rfl, by simp, by simp⟩
  | cons c rest ih =>
    by_cases h : p c
    · obtain ⟨t, ht1, ht2, ht3⟩ := ih
      refine ⟨c :: t, ?_, ?_, ?_⟩
      · simpa [List.dropWhile, h] using congrArg (c :: ·) ht1
      · intro x hx
        simp only [List.mem_cons] at hx
        rcases hx with hx | hx
        · simpa [hx] using h
        · exact ht2 x hx
      · intro x hx
        refine ht3 x ?_
        simpa [List.dropWhile, h] using hx
    · simp only [Bool.not_eq_true] at h
      refine ⟨[], by simp [List.dropWhile, h], by simp, ?_⟩
      intro x hx
      simp only [List.dropWhile, h] at hx
      simp only [List.head?, Option.some_inj] at hx
      exact hx ▸ h

/-- dropWhile jumps over a satisfying prefix and stops at a failing head. -/
theorem dropWhile_append_eq (p : Char → Bool) (t rest : List Char)
    (hall : ∀ c ∈ t, p c = true)
    (hhead : ∀ c, rest.head? = some c → p c = false) :
    (t ++ rest).dropWhile p = rest := by
  induction t with
  | nil =>
    cases rest with
    | nil => rfl
    | cons r rs => simp [List.dropWhile, hhead r rfl]
  | cons c t ih =>
    have hc : p c = true := hall c (by simp)
    simpa [List.dropWhile, hc] using ih fun x hx => hall x (by simp [hx])

/-- Characterisation of the greedy class consumer. -/
theorem chompClass1_eq_some (p : Char → Bool) (l r : List Char) :
    chompClass1 p l = some r ↔
      ∃ t, t ≠ [] ∧ (∀ c ∈ t, p c = true) ∧ l = t ++ r ∧
        (∀ c, r.head? = some c → p c = false) := by
  constructor
  · intro h
    cases l with
    | nil => simp [chompClass1] at h
    | cons c rest =>
      by_cases hc : p c
      · simp only [chompClass1, hc, if_true, Option.some_inj] at h
        obtain ⟨t, ht1, ht2, ht3⟩ := dropWhile_decomp p rest
        refine ⟨c :: t, by simp, ?_, ?_, ?_⟩
        · intro x hx
          simp only [List.mem_cons] at hx
          rcases hx with hx | hx
          · simpa [hx] using hc
          · exact ht2 x hx
        · simpa [h] using congrArg (c :: ·) ht1
        · intro x hx
          exact ht3 x (by simpa [h] using hx)
      · simp [chompClass1, hc] at h
  · rintro ⟨t, hne, hall, rfl, hhead⟩
    cases t with
    | nil => exact absurd rfl hne
    | cons c t =>
      have hc : p c = true := hall c (by simp)
      simpa [chompClass1, hc] using dropWhile_append_eq p t r
        (fun x hx => hall x (by simp [hx])) hhead

/-- Characterisation of the fixed width digit consumer. -/
theorem chompDigitsN_eq_some (n : Nat) (l r : List Char) :
    chompDigitsN n l = some r ↔
      ∃ t, t.length = n ∧ (∀ c ∈ t, isDigitChar c = true) ∧ l = t ++ r := by
  induction n generalizing l with
  | zero =>
    constructor
    · intro h
      simp only [chompDigitsN, Option.some_inj] at h
      exact ⟨[], rfl, by simp, by simp [h]⟩
    · rintro ⟨t, ht, -, rfl⟩
      simp only [List.length_eq_zero] at ht
      simp [chompDigitsN, ht]
  | succ n ih =>
    cases l with
    | nil =>
      constructor
      · intro h
        simp [chompDigitsN] at h
      · rintro ⟨t, ht, -, hl⟩
        exact absurd hl.symm (by simp [← List.length_pos_iff_ne_nil, ht])
    | cons c l =>
      constructor
      · intro h
        by_cases hc : isDigitChar c
        · simp only [chompDigitsN, hc, if_true] at h
          obtain ⟨t, ht1, ht2, ht3⟩ := (ih l).mp h
          refine ⟨c :: t, by simp [ht1], ?_, by simp [ht3]⟩
          intro x hx
          simp only [List.mem_cons] at hx
          rcases hx with hx | hx
          · simpa [hx] using hc
          · exact ht2 x hx
        · simp [chompDigitsN, hc] at h
      · rintro ⟨t, ht, hall, hl⟩
        cases t with
        | nil => simp at ht
        | cons d t =>
          obtain ⟨hd, hl2⟩ : c = d ∧ l = t ++ r := by simpa using hl
          have hc : isDigitChar c = true := hd ▸ hall d (by simp)
          simp only [chompDigitsN, hc, if_true]
          exact (ih l).mpr ⟨t, by simpa using ht,
            fun x hx => hall x (by simp [hx]), hl2⟩

/-- Characterisation of the literal consumer. -/
theorem chompLit_eq_some (x : Char) (l r : List Char) :
    chompLit x l = some r ↔ l = x :: r := by
  cases l with
  | nil => simp [chompLit]
  | cons c rest =>
    by_cases hc : c = x
    · simp [chompLit, hc]
    · simp [chompLit, hc, Ne.symm hc]

theorem ws_not_upper {c : Char} (h : isSpaceChar c = true) : isUpperAZ c = false := by
  simp only [isSpaceChar, Bool.or_eq_true, decide_eq_true_eq] at h
  rcases h with ((((h | h) | h) | h) | h) | h <;> subst h <;> decide

theorem ws_not_digit {c : Char} (h : isSpaceChar c = true) : isDigitChar c = false := by
  simp only [isSpaceChar, Bool.or_eq_true, decide_eq_true_eq] at h
  rcases h with ((((h | h) | h) | h) | h) | h <;> subst h <;> decide

theorem ws_not_dot {c : Char} (h : isSpaceChar c = true) : c ≠ '.' := by
  simp only [isSpaceChar, Bool.or_eq_true, decide_eq_true_eq] at h
  rcases h with ((((h | h) | h) | h) | h) | h <;> subst h <;> decide

theorem upper_not_ws {c : Char} (h : isUpperAZ c = true) : isSpaceChar c = false := by
  cases hw : isSpaceChar c with
  | false => rfl
  | true => exact absurd h (by simp [ws_not_upper hw])

theorem digit_not_ws {c : Char} (h : isDigitChar c = true) : isSpaceChar c = false := by
  cases hw : isSpaceChar c with
  | false => rfl
  | true => exact absurd h (by simp [ws_not_digit hw])

theorem skipOptDot_of_head_ne (l : List Char)
    (h : ∀ r, l.head? = some r → r ≠ '.') : skipOptDot l = l := by
  cases l with
  | nil => rfl
  | cons r rs =>
    have hr : r ≠ '.' := h r rfl
    unfold skipOptDot
    split
    · rename_i rest heq
      simp only [List.cons.injEq] at heq
      exact absurd heq.1 hr
    · rfl

theorem exists_pair (t : List Char) (h : t.length = 2) : ∃ a b, t = [a, b] := by
  match t, h with
  | [a, b], _ => exact ⟨a, b, rfl⟩

theorem exists_quad (t : List Char) (h : t.length = 4) : ∃ a b c d, t = [a, b, c, d] := by
  match t, h with
  | [a, b, c, d], _ => exact ⟨a, b, c, d, rfl⟩

theorem dropWhile_of_head_not (p : Char → Bool) (l : List Char)
    (h : ∀ r, l.head? = some r → p r = false) : l.dropWhile p = l := by
  cases l with
  | nil => rfl
  | cons r rs => simp [List.dropWhile, h r rfl]

theorem pySplit_all_ws : ∀ (l : List Char), (∀ x ∈ l, isSpaceChar x = true) →
    pySplit l = []
  | [], _ => rfl
  | c :: rest, h => by
    have hc : isSpaceChar c = true := h c (by simp)
    simpa [pySplit, hc] using pySplit_all_ws rest fun x hx => h x (by simp [hx])

theorem pySplit_eq_nil : ∀ (l : List Char), pySplit l = [] →
    ∀ x ∈ l, isSpaceChar x = true
  | [], _, x, hx => by simp at hx
  | c :: rest, h, x, hx => by
    by_cases hc : isSpaceChar c
    · rw [show pySplit (c :: rest) = pySplit rest by simp [pySplit, hc]] at h
      simp only [List.mem_cons] at hx
      rcases hx with hx | hx
      · exact hx ▸ hc
      · exact pySplit_eq_nil rest h x hx
    · exfalso
      rw [show pySplit (c :: rest) = pySplitCons c (pySplit rest) rest by
        simp [pySplit, hc]] at h
      rcases hps : pySplit rest with - | ⟨f, fs⟩ <;> rcases hrest : rest with - | ⟨r, rs⟩ <;>
        rw [hps, hrest] at h <;> simp [pySplitCons] at h
      rcases hwr : isSpaceChar r <;> simp [hwr] at h

theorem pySplit_wsSkip : ∀ (w rest : List Char), (∀ x ∈ w, isSpaceChar x = true) →
    pySplit (w ++ rest) = pySplit rest
  | [], _, _ => rfl
  | c :: w, rest, h => by
    have hc : isSpaceChar c = true := h c (by simp)
    simpa [pySplit, hc] using pySplit_wsSkip w rest fun x hx => h x (by simp [hx])

theorem pySplit_token : ∀ (t rest : List Char), t ≠ [] →
    (∀ x ∈ t, isSpaceChar x = false) →
    (∀ r, rest.head? = some r → isSpaceChar r = true) →
    pySplit (t ++ rest) = t :: pySplit rest
  | [], _, hne, _, _ => absurd rfl hne
  | [c], rest, _, hall, hhead => by
    have hc : isSpaceChar c = false := hall c (by simp)
    cases rest with
    | nil => simp [pySplit, pySplitCons, hc]
    | cons r rs =>
      have hr : isSpaceChar r = true := hhead r rfl
      rw [List.singleton_append,
        show pySplit (c :: r :: rs) = pySplitCons c (pySplit (r :: rs)) (r :: rs) from by
          simp [pySplit, hc]]
      rcases hps : pySplit (r :: rs) with - | ⟨f, fs⟩ <;> simp [pySplitCons, hr]
  | a :: b :: t, rest, _, hall, hhead => by
    have ha : isSpaceChar a = false := hall a (by simp)
    have hb : isSpaceChar b = false := hall b (by simp)
    have ih := pySplit_token (b :: t) rest (by simp)
      (fun x hx => hall x (by simp only [List.mem_cons] at hx ⊢; tauto)) hhead
    simp only [List.cons_append] at ih ⊢
    rw [show pySplit (a :: b :: (t ++ rest)) =
        pySplitCons a (pySplit (b :: (t ++ rest))) (b :: (t ++ rest)) from by
      simp [pySplit, ha]]
    rw [ih]
    simp [pySplitCons, hb]

theorem pySplit_eq_cons : ∀ (l t : List Char) (ts : List (List Char)),
    pySplit l = t :: ts →
    ∃ w0 rest, l = w0 ++ t ++ rest ∧ (∀ x ∈ w0, isSpaceChar x = true) ∧ t ≠ [] ∧
      (∀ x ∈ t, isSpaceChar x = false) ∧
      (∀ r, rest.head? = some r → isSpaceChar r = true) ∧ pySplit rest = ts
  | [], t, ts, h => by simp [pySplit] at h
  | c :: rest, t, ts, h => by
    by_cases hc : isSpaceChar c
    · rw [show pySplit (c :: rest) = pySplit rest by simp [pySplit, hc]] at h
      obtain ⟨w0, rest2, h1, h2, h3, h4, h5, h6⟩ := pySplit_eq_cons rest t ts h
      refine ⟨c :: w0, rest2, by simp [h1], ?_, h3, h4, h5, h6⟩
      intro x hx
      simp only [List.mem_cons] at hx
      rcases hx with hx | hx
      · exact hx ▸ hc
      · exact h2 x hx
    · simp only [Bool.not_eq_true] at hc
      rw [show pySplit (c :: rest) = pySplitCons c (pySplit rest) rest by
        simp [pySplit, hc]] at h
      rcases hps : pySplit rest with - | ⟨f, fs⟩
      · have hws := pySplit_eq_nil rest hps
        have hval : pySplitCons c (pySplit rest) rest = [[c]] := by
          rw [hps]
          rcases rest with - | ⟨r, rs⟩ <;> simp [pySplitCons]
        rw [hval] at h
        obtain ⟨rfl, rfl⟩ : t = [c] ∧ ts = [] := by
          injection h with h1 h2
          exact ⟨h1.symm, h2.symm⟩
        refine ⟨[], rest, by simp, by simp, by simp, ?_, ?_, hps⟩
        · intro x hx
          simp only [List.mem_singleton] at hx
          exact hx ▸ hc
        · intro r hr
          cases rest with
          | nil => simp at hr
          | cons x xs =>
            simp only [List.head?, Option.some_inj] at hr
            exact hr ▸ hws x (by simp)
      · cases rest with
        | nil => simp [pySplit] at hps
        | cons r rs =>
          rw [hps] at h
          by_cases hwr : isSpaceChar r
          · rw [show pySplitCons c (f :: fs) (r :: rs) = [c] :: f :: fs by
              simp [pySplitCons, hwr]] at h
            obtain ⟨rfl, rfl⟩ : t = [c] ∧ ts = f :: fs := by
              injection h with h1 h2
              exact ⟨h1.symm, h2.symm⟩
            refine ⟨[], r :: rs, by simp, by simp, by simp, ?_, ?_, hps⟩
            · intro x hx
              simp only [List.mem_singleton] at hx
              exact hx ▸ hc
            · intro x hx
              simp only [List.head?, Option.some_inj] at hx
              exact hx ▸ hwr
          · simp only [Bool.not_eq_true] at hwr
            rw [show pySplitCons c (f :: fs) (r :: rs) = (c :: f) :: fs by
              simp [pySplitCons, hwr]] at h
            obtain ⟨rfl, rfl⟩ : t = c :: f ∧ ts = fs := by
              injection h with h1 h2
              exact ⟨h1.symm, h2.symm⟩
            obtain ⟨w0, rest2, h1, h2, h3, h4, h5, h6⟩ :=
              pySplit_eq_cons (r :: rs) f ts hps
            have hw0 : w0 = [] := by
              cases w0 with
              | nil => rfl
              | cons y ys =>
                exfalso
                have hry : r = y := by simpa using congrArg List.head? h1
                exact absurd (hry ▸ h2 y (by simp)) (by simp [hwr])
            subst hw0
            simp only [List.nil_append] at h1
            refine ⟨[], rest2, by simp [h1], by simp, by simp, ?_, h5, h6⟩
            intro x hx
            simp only [List.mem_cons] at hx
            rcases hx with hx | hx
            · exact hx ▸ hc
            · exact h4 x hx

theorem elim_false_eq_true (o : Option (List Char)) (f : List Char → Bool) :
    o.elim false f = true ↔ ∃ x, o = some x ∧ f x = true := by
  cases o <;> simp

theorem matchTail_eq_true (lf : List Char) :
    matchTail lf = true ↔ ∃ c, lf = [c] ∧ (c = 'C' ∨ c = 'P') := by
  cases lf with
  | nil => simp [matchTail]
  | cons c rest =>
    cases rest with
    | nil => simp [matchTail]
    | cons d rest2 => simp [matchTail]

theorem isDateToken_elim {dt : List Char} (h : isDateToken dt = true) :
    ∃ m1 m2 d1 d2 y1 y2 y3 y4,
      dt = [m1, m2, '/', d1, d2, '/', y1, y2, y3, y4] ∧
      isDigitChar m1 = true ∧ isDigitChar m2 = true ∧ isDigitChar d1 = true ∧
      isDigitChar d2 = true ∧ isDigitChar y1 = true ∧ isDigitChar y2 = true ∧
      isDigitChar y3 = true ∧ isDigitChar y4 = true := by
  rcases dt with - | ⟨m1, dt⟩; · simp [isDateToken] at h
  rcases dt with - | ⟨m2, dt⟩; · simp [isDateToken] at h
  rcases dt with - | ⟨a, dt⟩; · simp [isDateToken] at h
  rcases dt with - | ⟨d1, dt⟩; · simp [isDateToken] at h
  rcases dt with - | ⟨d2, dt⟩; · simp [isDateToken] at h
  rcases dt with - | ⟨b, dt⟩; · simp [isDateToken] at h
  rcases dt with - | ⟨y1, dt⟩; · simp [isDateToken] at h
  rcases dt with - | ⟨y2, dt⟩; · simp [isDateToken] at h
  rcases dt with - | ⟨y3, dt⟩; · simp [isDateToken] at h
  rcases dt with - | ⟨y4, dt⟩; · simp [isDateToken] at h
  rcases dt with - | ⟨z, dt⟩
  · simp only [isDateToken, Bool.and_eq_true, decide_eq_true_eq] at h
    obtain ⟨⟨⟨⟨⟨⟨⟨⟨⟨hm1, hm2⟩, ha⟩, hd1⟩, hd2⟩, hb⟩, hy1⟩, hy2⟩, hy3⟩, hy4⟩ := h
    subst ha; subst hb
    exact ⟨m1, m2, d1, d2, y1, y2, y3, y4, rfl, hm1, hm2, hd1, hd2, hy1, hy2, hy3, hy4⟩
  · simp [isDateToken] at h

theorem isDateToken_chars {dt : List Char} (h : isDateToken dt = true) :
    ∀ x ∈ dt, isSpaceChar x = false := by
  obtain ⟨m1, m2, d1, d2, y1, y2, y3, y4, rfl, h1, h2, h3, h4, h5, h6, h7, h8⟩ :=
    isDateToken_elim h
  intro x hx
  simp only [List.mem_cons] at hx
  rcases hx with rfl | rfl | rfl | rfl | rfl | rfl | rfl | rfl | rfl | rfl | hx
  · exact digit_not_ws h1
  · exact digit_not_ws h2
  · decide
  · exact digit_not_ws h3
  · exact digit_not_ws h4
  · decide
  · exact digit_not_ws h5
  · exact digit_not_ws h6
  · exact digit_not_ws h7
  · exact digit_not_ws h8
  · simp at hx

theorem isStrikeToken_elim {kt : List Char} (h : isStrikeToken kt = true) :
    ∃ ds rest, kt = ds ++ rest ∧ ds ≠ [] ∧ (∀ x ∈ ds, isDigitChar x = true) ∧
      (rest = [] ∨ ∃ ds2, rest = '.' :: ds2 ∧ ∀ x ∈ ds2, isDigitChar x = true) := by
  cases kt with
  | nil => simp [isStrikeToken] at h
  | cons c kt0 =>
    simp only [isStrikeToken, Bool.and_eq_true] at h
    obtain ⟨hc, hrest⟩ := h
    obtain ⟨t, hdec, hall, hhead⟩ := dropWhile_decomp isDigitChar (c :: kt0)
    have htne : t ≠ [] := by
      intro habs
      subst habs
      simp only [List.nil_append] at hdec
      exact absurd hc (by simp [hhead c (by rw [← hdec]; rfl)])
    refine ⟨t, (c :: kt0).dropWhile isDigitChar, hdec, htne, hall, ?_⟩
    rcases hdw : (c :: kt0).dropWhile isDigitChar with - | ⟨d, r2⟩
    · exact Or.inl rfl
    · rw [hdw] at hrest
      simp only [Bool.and_eq_true, decide_eq_true_eq] at hrest
      refine Or.inr ⟨r2, by rw [hrest.1], ?_⟩
      intro x hx
      have := hrest.2
      simp only [List.all_eq_true] at this
      exact this x hx

theorem isStrikeToken_chars {kt : List Char} (h : isStrikeToken kt = true) :
    ∀ x ∈ kt, isSpaceChar x = false := by
  obtain ⟨ds, rest, rfl, -, hds, hr⟩ := isStrikeToken_elim h
  intro x hx
  simp only [List.mem_append] at hx
  rcases hx with hx | hx
  · exact digit_not_ws (hds x hx)
  · rcases hr with rfl | ⟨ds2, rfl, hds2⟩
    · simp at hx
    · simp only [List.mem_cons] at hx
      rcases hx with rfl | hx
      · decide
      · exact digit_not_ws (hds2 x hx)

theorem isStrikeToken_intro_nodot (ds : List Char) (h1 : ds ≠ [])
    (h2 : ∀ x ∈ ds, isDigitChar x = true) : isStrikeToken ds = true := by
  cases ds with
  | nil => exact absurd rfl h1
  | cons c ds0 =>
    have hdw : (c :: ds0).dropWhile isDigitChar = [] := by
      have := dropWhile_append_eq isDigitChar (c :: ds0) [] h2 (by simp)
      simpa using this
    simp [isStrikeToken, hdw, h2 c (by simp)]

theorem isStrikeToken_intro_dot (ds ds2 : List Char) (h1 : ds ≠ [])
    (h2 : ∀ x ∈ ds, isDigitChar x = true) (h3 : ∀ x ∈ ds2, isDigitChar x = true) :
    isStrikeToken (ds ++ '.' :: ds2) = true := by
  cases ds with
  | nil => exact absurd rfl h1
  | cons c ds0 =>
    have hdw : ((c :: ds0) ++ '.' :: ds2).dropWhile isDigitChar = '.' :: ds2 :=
      dropWhile_append_eq isDigitChar (c :: ds0) ('.' :: ds2) h2
        (by intro x hx; simp only [List.head?, Option.some_inj] at hx; subst hx; decide)
    rw [show ((c :: ds0) ++ '.' :: ds2) = c :: (ds0 ++ '.' :: ds2) from rfl] at hdw ⊢
    simp only [isStrikeToken, hdw, h2 c (by simp), Bool.true_and]
    simp only [List.all_eq_true, decide_eq_true_eq, Bool.and_eq_true, true_and]
    exact h3

theorem head_append_cons (x : Char) (xs rest : List Char) :
    ((x :: xs) ++ rest).head? = some x := rfl

theorem chompLit_self (x : Char) (r : List Char) : chompLit x (x :: r) = some r := by
  simp [chompLit]

/-- The regex matcher accepts exactly the shaped strings. -/
theorem matchCore_iff_shape (l : List Char) : matchCore l = true ↔ ContractShape l := by
  constructor
  · intro h
    unfold matchCore at h
    rw [elim_false_eq_true] at h
    obtain ⟨lf, hchain, htail⟩ := h
    simp only [Option.bind_eq_some] at hchain
    obtain ⟨l1, h1, l2, h2, l3, h3, l4, h4, l5, h5, l6, h6, l7, h7, l8, h8, l9, h9, h10⟩ :=
      hchain
    obtain ⟨c, rfl, hcp⟩ := (matchTail_eq_true lf).mp htail
    obtain ⟨t1, ht1ne, ht1all, rfl, hh1⟩ := (chompClass1_eq_some _ _ _).mp h1
    obtain ⟨w1, hw1ne, hw1all, rfl, hh2⟩ := (chompClass1_eq_some _ _ _).mp h2
    obtain ⟨d1, hd1len, hd1dig, rfl⟩ := (chompDigitsN_eq_some _ _ _).mp h3
    obtain ⟨a1, a2, rfl⟩ := exists_pair d1 hd1len
    rw [chompLit_eq_some] at h4
    subst h4
    obtain ⟨d2, hd2len, hd2dig, rfl⟩ := (chompDigitsN_eq_some _ _ _).mp h5
    obtain ⟨b1, b2, rfl⟩ := exists_pair d2 hd2len
    rw [chompLit_eq_some] at h6
    subst h6
    obtain ⟨d4, hd4len, hd4dig, rfl⟩ := (chompDigitsN_eq_some _ _ _).mp h7
    obtain ⟨e1, e2, e3, e4, rfl⟩ := exists_quad d4 hd4len
    obtain ⟨w2, hw2ne, hw2all, rfl, hh8⟩ := (chompClass1_eq_some _ _ _).mp h8
    obtain ⟨ds1, hds1ne, hds1dig, rfl, hh9⟩ := (chompClass1_eq_some _ _ _).mp h9
    have hdate : isDateToken [a1, a2, '/', b1, b2, '/', e1, e2, e3, e4] = true := by
      simp [isDateToken, hd1dig a1 (by simp), hd1dig a2 (by simp),
        hd2dig b1 (by simp), hd2dig b2 (by simp), hd4dig e1 (by simp),
        hd4dig e2 (by simp), hd4dig e3 (by simp), hd4dig e4 (by simp)]
    rcases l9 with - | ⟨c0, l9'⟩
    · simp [skipOptDot, List.dropWhile, chompClass1] at h10
    · by_cases hdot : c0 = '.'
      · subst hdot
        rw [show skipOptDot ('.' :: l9') = l9' from rfl] at h10
        obtain ⟨w3, hw3ne, hw3all, hw3eq, -⟩ := (chompClass1_eq_some _ _ _).mp h10
        obtain ⟨ds2, hds2dec, hds2dig, -⟩ := dropWhile_decomp isDigitChar l9'
        refine ⟨t1, w1, [a1, a2, '/', b1, b2, '/', e1, e2, e3, e4], w2,
          ds1 ++ '.' :: ds2, w3, c, ?_, ht1ne, ht1all, hw1ne, hw1all, hdate,
          hw2ne, hw2all, isStrikeToken_intro_dot ds1 ds2 hds1ne hds1dig hds2dig,
          hw3ne, hw3all, hcp⟩
        rw [show l9' = ds2 ++ (w3 ++ [c]) from by rw [← hw3eq]; exact hds2dec]
        simp [List.append_assoc]
      · have hskip : skipOptDot (c0 :: l9') = c0 :: l9' := by
          refine skipOptDot_of_head_ne _ ?_
          intro r hr
          simp only [List.head?, Option.some_inj] at hr
          exact hr ▸ hdot
        rw [hskip] at h10
        have hdw : (c0 :: l9').dropWhile isDigitChar = c0 :: l9' := by
          refine dropWhile_of_head_not _ _ ?_
          intro r hr
          simp only [List.head?, Option.some_inj] at hr
          exact hr ▸ hh9 c0 rfl
        rw [hdw] at h10
        obtain ⟨w3, hw3ne, hw3all, hw3eq, -⟩ := (chompClass1_eq_some _ _ _).mp h10
        refine ⟨t1, w1, [a1, a2, '/', b1, b2, '/', e1, e2, e3, e4], w2,
          ds1, w3, c, ?_, ht1ne, ht1all, hw1ne, hw1all, hdate, hw2ne, hw2all,
          isStrikeToken_intro_nodot ds1 hds1ne hds1dig, hw3ne, hw3all, hcp⟩
        rw [hw3eq]
        simp [List.append_assoc]
  · rintro ⟨t1, w1, dt, w2, kt, w3, c, rfl, ht1ne, ht1all, hw1ne, hw1all, hdt,
      hw2ne, hw2all, hkt, hw3ne, hw3all, hcp⟩
    obtain ⟨m1, m2, d1, d2, y1, y2, y3, y4, rfl, hm1, hm2, hd1, hd2, hy1, hy2, hy3, hy4⟩ :=
      isDateToken_elim hdt
    obtain ⟨ds, rest, rfl, hdsne, hdsdig, hrest⟩ := isStrikeToken_elim hkt
    rcases w1 with - | ⟨x1, w1'⟩; · exact absurd rfl hw1ne
    rcases w2 with - | ⟨x2, w2'⟩; · exact absurd rfl hw2ne
    rcases w3 with - | ⟨x3, w3'⟩; · exact absurd rfl hw3ne
    have hcws : isSpaceChar c = false := by
      rcases hcp with rfl | rfl <;> decide
    have hcdig : isDigitChar c = false := by
      rcases hcp with rfl | rfl <;> decide
    simp only [List.append_assoc, List.cons_append, List.nil_append]
    set R3 : List Char := x3 :: (w3' ++ [c]) with hR3
    have h1 : chompClass1 isUpperAZ
        (t1 ++ (x1 :: (w1' ++ ([m1, m2, '/', d1, d2, '/', y1, y2, y3, y4] ++
          (x2 :: (w2' ++ (ds ++ (rest ++ R3)))))))) =
        some (x1 :: (w1' ++ ([m1, m2, '/', d1, d2, '/', y1, y2, y3, y4] ++
          (x2 :: (w2' ++ (ds ++ (rest ++ R3))))))) := by
      refine (chompClass1_eq_some _ _ _).mpr ⟨t1, ht1ne, ht1all, rfl, ?_⟩
      intro r hr
      simp only [List.head?, Option.some_inj] at hr
      exact hr ▸ ws_not_upper (hw1all x1 (by simp))
    have h2 : chompClass1 isSpaceChar
        (x1 :: (w1' ++ ([m1, m2, '/', d1, d2, '/', y1, y2, y3, y4] ++
          (x2 :: (w2' ++ (ds ++ (rest ++ R3))))))) =
        some ([m1, m2, '/', d1, d2, '/', y1, y2, y3, y4] ++
          (x2 :: (w2' ++ (ds ++ (rest ++ R3))))) := by
      refine (chompClass1_eq_some _ _ _).mpr
        ⟨x1 :: w1', by simp, hw1all, by simp, ?_⟩
      intro r hr
      simp only [head_append_cons, Option.some_inj] at hr
      exact hr ▸ digit_not_ws hm1
    have h3 : chompDigitsN 2
        ([m1, m2, '/', d1, d2, '/', y1, y2, y3, y4] ++
          (x2 :: (w2' ++ (ds ++ (rest ++ R3))))) =
        some ('/' :: ([d1, d2, '/', y1, y2, y3, y4] ++
          (x2 :: (w2' ++ (ds ++ (rest ++ R3)))))) := by
      refine (chompDigitsN_eq_some _ _ _).mpr ⟨[m1, m2], rfl, ?_, by simp⟩
      intro x hx
      simp only [List.mem_cons, List.mem_singleton] at hx
      rcases hx with rfl | rfl | hx
      · exact hm1
      · exact hm2
      · simp at hx
    have h5 : chompDigitsN 2
        ([d1, d2, '/', y1, y2, y3, y4] ++ (x2 :: (w2' ++ (ds ++ (rest ++ R3))))) =
        some ('/' :: ([y1, y2, y3, y4] ++ (x2 :: (w2' ++ (ds ++ (rest ++ R3)))))) := by
      refine (chompDigitsN_eq_some _ _ _).mpr ⟨[d1, d2], rfl, ?_, by simp⟩
      intro x hx
      simp only [List.mem_cons, List.mem_singleton] at hx
      rcases hx with rfl | rfl | hx
      · exact hd1
      · exact hd2
      · simp at hx
    have h7 : chompDigitsN 4
        ([y1, y2, y3, y4] ++ (x2 :: (w2' ++ (ds ++ (rest ++ R3))))) =
        some (x2 :: (w2' ++ (ds ++ (rest ++ R3)))) := by
      refine (chompDigitsN_eq_some _ _ _).mpr ⟨[y1, y2, y3, y4], rfl, ?_, by simp⟩
      intro x hx
      simp only [List.mem_cons, List.mem_singleton] at hx
      rcases hx with rfl | rfl | rfl | rfl | hx
      · exact hy1
      · exact hy2
      · exact hy3
      · exact hy4
      · simp at hx
    rcases ds with - | ⟨g1, ds'⟩; · exact absurd rfl hdsne
    have h8 : chompClass1 isSpaceChar
        (x2 :: (w2' ++ ((g1 :: ds') ++ (rest ++ R3)))) =
        some ((g1 :: ds') ++ (rest ++ R3)) := by
      refine (chompClass1_eq_some _ _ _).mpr
        ⟨x2 :: w2', by simp, hw2all, by simp, ?_⟩
      intro r hr
      simp only [head_append_cons, Option.some_inj] at hr
      exact hr ▸ digit_not_ws (hdsdig g1 (by simp))
    have hR3head : ∀ r, R3.head? = some r → isSpaceChar r = true := by
      intro r hr
      rw [hR3] at hr
      simp only [List.head?, Option.some_inj] at hr
      exact hr ▸ hw3all x3 (by simp)
    have hR3headdig : ∀ r, R3.head? = some r → isDigitChar r = false := by
      intro r hr
      exact ws_not_digit (hR3head r hr)
    have hR3headdot : ∀ r, R3.head? = some r → r ≠ '.' := by
      intro r hr
      exact ws_not_dot (hR3head r hr)
    have hlast : chompClass1 isSpaceChar R3 = some [c] := by
      refine (chompClass1_eq_some _ _ _).mpr ⟨x3 :: w3', by simp, hw3all, by simp [hR3], ?_⟩
      intro r hr
      simp only [List.head?, Option.some_inj] at hr
      exact hr ▸ hcws
    have htail : matchTail [c] = true := by
      rcases hcp with rfl | rfl <;> decide
    rcases hrest with rfl | ⟨ds2, rfl, hds2dig⟩
    · have h9 : chompClass1 isDigitChar ((g1 :: ds') ++ ([] ++ R3)) = some R3 := by
        refine (chompClass1_eq_some _ _ _).mpr ⟨g1 :: ds', by simp, hdsdig, by simp, hR3headdig⟩
      have hskip : skipOptDot R3 = R3 := skipOptDot_of_head_ne _ hR3headdot
      have hdw : R3.dropWhile isDigitChar = R3 := dropWhile_of_head_not _ _ hR3headdig
      simp only [List.cons_append, List.nil_append, List.append_assoc] at h1 h2 h3 h5 h7 h8 h9
      unfold matchCore
      simp only [List.cons_append, List.nil_append, List.append_assoc]
      rw [h1]
      simp only [Option.some_bind]
      rw [h2]
      simp only [Option.some_bind]
      rw [h3]
      simp only [Option.some_bind]
      rw [chompLit_self]
      simp only [Option.some_bind]
      rw [h5]
      simp only [Option.some_bind]
      rw [chompLit_self]
      simp only [Option.some_bind]
      rw [h7]
      simp only [Option.some_bind]
      rw [h8]
      simp only [Option.some_bind]
      rw [h9]
      simp only [Option.some_bind]
      rw [hskip, hdw, hlast]
      simpa using htail
    · have h9 : chompClass1 isDigitChar ((g1 :: ds') ++ (('.' :: ds2) ++ R3)) =
          some (('.' :: ds2) ++ R3) := by
        refine (chompClass1_eq_some _ _ _).mpr ⟨g1 :: ds', by simp, hdsdig, by simp, ?_⟩
        intro r hr
        simp only [head_append_cons, Option.some_inj] at hr
        subst hr
        decide
      have hskip : skipOptDot (('.' :: ds2) ++ R3) = ds2 ++ R3 := rfl
      have hdw : (ds2 ++ R3).dropWhile isDigitChar = R3 :=
        dropWhile_append_eq _ ds2 R3 hds2dig hR3headdig
      simp only [List.cons_append, List.nil_append, List.append_assoc]
        at h1 h2 h3 h5 h7 h8 h9 hskip
      unfold matchCore
      simp only [List.cons_append, List.nil_append, List.append_assoc]
      rw [h1]
      simp only [Option.some_bind]
      rw [h2]
      simp only [Option.some_bind]
      rw [h3]
      simp only [Option.some_bind]
      rw [chompLit_self]
      simp only [Option.some_bind]
      rw [h5]
      simp only [Option.some_bind]
      rw [chompLit_self]
      simp only [Option.some_bind]
      rw [h7]
      simp only [Option.some_bind]
      rw [h8]
      simp only [Option.some_bind]
      rw [h9]
      simp only [Option.some_bind]
      rw [hskip, hdw, hlast]
      simpa using htail

theorem noEdgeWs_head {l : List Char} (h : noEdgeWs l = true) :
    ∀ y, l.head? = some y → isSpaceChar y = false := by
  simp only [noEdgeWs, Bool.and_eq_true] at h
  intro y hy
  have h1 := h.1
  rw [hy] at h1
  simpa using h1

theorem noEdgeWs_last {l : List Char} (h : noEdgeWs l = true) :
    ∀ y, l.getLast? = some y → isSpaceChar y = false := by
  simp only [noEdgeWs, Bool.and_eq_true] at h
  intro y hy
  have h2 := h.2
  rw [hy] at h2
  simpa using h2

theorem getLast?_append_cons (A : List Char) (y : Char) (ys : List Char) :
    (A ++ y :: ys).getLast? = (y :: ys).getLast? :=
  List.getLast?_append_of_ne_nil A (by simp)

theorem getLast?_ws_of_all (y : Char) (ys : List Char)
    (h : ∀ x ∈ y :: ys, isSpaceChar x = true) :
    ∃ z, (y :: ys).getLast? = some z ∧ isSpaceChar z = true := by
  induction ys generalizing y with
  | nil => exact ⟨y, rfl, h y (by simp)⟩
  | cons b ys ih =>
    obtain ⟨z, hz1, hz2⟩ :=
      ih b (fun x hx => h x (by simp only [List.mem_cons] at hx ⊢; tauto))
    exact ⟨z, by rw [List.getLast?_cons_cons]; exact hz1, hz2⟩

/-- The spec grammar accepts exactly the shaped strings. -/
theorem grammar_iff_shape (l : List Char) : contractGrammarL l = true ↔ ContractShape l := by
  constructor
  · intro h
    simp only [contractGrammarL, Bool.and_eq_true] at h
    obtain ⟨hedge, hsplit⟩ := h
    rcases hps : pySplit l with - | ⟨r, - | ⟨d, - | ⟨k, - | ⟨t, - | ⟨x, ts⟩⟩⟩⟩⟩
    all_goals rw [hps] at hsplit
    · simp at hsplit
    · simp at hsplit
    · simp at hsplit
    · simp at hsplit
    · have hsplit2 : (isRootToken r && isDateToken d && isStrikeToken k &&
          isRightToken t) = true := hsplit
      simp only [Bool.and_eq_true] at hsplit2
      obtain ⟨⟨⟨hroot, hdate⟩, hstrike⟩, hright⟩ := hsplit2
      obtain ⟨w0, rest1, hl1, hw0ws, hrne, hrnws, hh1, hps1⟩ :=
        pySplit_eq_cons l r [d, k, t] hps
      have hw0 : w0 = [] := by
        cases w0 with
        | nil => rfl
        | cons y ys =>
          exfalso
          have hy : l.head? = some y := by rw [hl1]; rfl
          exact absurd (hw0ws y (by simp)) (by simp [noEdgeWs_head hedge y hy])
      subst hw0
      simp only [List.nil_append] at hl1
      obtain ⟨w1, rest2, hl2, hw1ws, hdne, hdnws, hh2, hps2⟩ :=
        pySplit_eq_cons rest1 d [k, t] hps1
      have hw1ne : w1 ≠ [] := by
        intro habs
        subst habs
        simp only [List.nil_append] at hl2
        rcases d with - | ⟨d0, d'⟩
        · exact absurd rfl hdne
        · have hd0 : rest1.head? = some d0 := by rw [hl2]; rfl
          exact absurd (hh1 d0 hd0) (by simp [hdnws d0 (by simp)])
      obtain ⟨w2, rest3, hl3, hw2ws, hkne, hknws, hh3, hps3⟩ :=
        pySplit_eq_cons rest2 k [t] hps2
      have hw2ne : w2 ≠ [] := by
        intro habs
        subst habs
        simp only [List.nil_append] at hl3
        rcases k with - | ⟨k0, k'⟩
        · exact absurd rfl hkne
        · have hk0 : rest2.head? = some k0 := by rw [hl3]; rfl
          exact absurd (hh2 k0 hk0) (by simp [hknws k0 (by simp)])
      obtain ⟨w3, rest4, hl4, hw3ws, htne, htnws, hh4, hps4⟩ :=
        pySplit_eq_cons rest3 t [] hps3
      have hw3ne : w3 ≠ [] := by
        intro habs
        subst habs
        simp only [List.nil_append] at hl4
        rcases t with - | ⟨t0, t'⟩
        · exact absurd rfl htne
        · have ht0 : rest3.head? = some t0 := by rw [hl4]; rfl
          exact absurd (hh3 t0 ht0) (by simp [htnws t0 (by simp)])
      have hrest4 : rest4 = [] := by
        cases hr4 : rest4 with
        | nil => rfl
        | cons y ys =>
          exfalso
          have hall := pySplit_eq_nil rest4 hps4
          rw [hr4] at hall
          obtain ⟨z, hz1, hz2⟩ := getLast?_ws_of_all y ys hall
          have hzl : l.getLast? = some z := by
            rw [hl1, hl2, hl3, hl4, hr4]
            simp only [List.append_assoc]
            rw [List.getLast?_append_of_ne_nil r (by simp),
              List.getLast?_append_of_ne_nil w1 (by simp),
              List.getLast?_append_of_ne_nil d (by simp),
              List.getLast?_append_of_ne_nil w2 (by simp),
              List.getLast?_append_of_ne_nil k (by simp),
              List.getLast?_append_of_ne_nil w3 (by simp),
              List.getLast?_append_of_ne_nil t (by simp)]
            exact hz1
          exact absurd hz2 (by simp [noEdgeWs_last hedge z hzl])
      subst hrest4
      obtain ⟨c, rfl⟩ : ∃ c, t = [c] := by
        simp only [isRightToken, Bool.or_eq_true, decide_eq_true_eq] at hright
        rcases hright with rfl | rfl
        · exact ⟨'C', rfl⟩
        · exact ⟨'P', rfl⟩
      have hcp : c = 'C' ∨ c = 'P' := by
        simp only [isRightToken, Bool.or_eq_true, decide_eq_true_eq] at hright
        rcases hright with h | h
        · exact Or.inl (by injection h)
        · exact Or.inr (by injection h)
      simp only [isRootToken, Bool.and_eq_true, Bool.not_eq_true',
        List.isEmpty_eq_false, List.all_eq_true] at hroot
      refine ⟨r, w1, d, w2, k, w3, c, ?_, ?_, fun x hx => hroot.2 x hx, hw1ne, hw1ws,
        hdate, hw2ne, hw2ws, hstrike, hw3ne, hw3ws, hcp⟩
      · rw [hl1, hl2, hl3, hl4]
        simp [List.append_assoc]
      · simpa using hroot.1
    · simp at hsplit
  · rintro ⟨t1, w1, dt, w2, kt, w3, c, rfl, ht1ne, ht1all, hw1ne, hw1all, hdt,
      hw2ne, hw2all, hkt, hw3ne, hw3all, hcp⟩
    rcases w1 with - | ⟨x1, w1'⟩; · exact absurd rfl hw1ne
    rcases w2 with - | ⟨x2, w2'⟩; · exact absurd rfl hw2ne
    rcases w3 with - | ⟨x3, w3'⟩; · exact absurd rfl hw3ne
    rcases t1 with - | ⟨u0, t1'⟩; · exact absurd rfl ht1ne
    have hcws : isSpaceChar c = false := by
      rcases hcp with rfl | rfl <;> decide
    have hdtne : dt ≠ [] := by
      intro habs
      rw [habs] at hdt
      simp [isDateToken] at hdt
    have hktne : kt ≠ [] := by
      intro habs
      rw [habs] at hkt
      simp [isStrikeToken] at hkt
    have hsplit : pySplit ((u0 :: t1') ++ ((x1 :: w1') ++ (dt ++ ((x2 :: w2') ++
        (kt ++ ((x3 :: w3') ++ [c])))))) = [u0 :: t1', dt, kt, [c]] := by
      rw [pySplit_token (u0 :: t1') _ (by simp)
        (fun x hx => upper_not_ws (ht1all x hx))
        (by intro rr hrr
            simp only [head_append_cons, Option.some_inj] at hrr
            exact hrr ▸ hw1all x1 (by simp))]
      rw [pySplit_wsSkip (x1 :: w1') _ hw1all]
      rw [pySplit_token dt _ hdtne (isDateToken_chars hdt)
        (by intro rr hrr
            simp only [head_append_cons, Option.some_inj] at hrr
            exact hrr ▸ hw2all x2 (by simp))]
      rw [pySplit_wsSkip (x2 :: w2') _ hw2all]
      rw [pySplit_token kt _ hktne (isStrikeToken_chars hkt)
        (by intro rr hrr
            simp only [head_append_cons, Option.some_inj] at hrr
            exact hrr ▸ hw3all x3 (by simp))]
      rw [pySplit_wsSkip (x3 :: w3') _ hw3all]
      rw [show ([c] : List Char) = [c] ++ [] from by simp]
      rw [pySplit_token [c] [] (by simp) (by
        intro x hx
        simp only [List.mem_singleton] at hx
        exact hx ▸ hcws) (by simp)]
      rfl
    have hedge : noEdgeWs ((u0 :: t1') ++ ((x1 :: w1') ++ (dt ++ ((x2 :: w2') ++
        (kt ++ ((x3 :: w3') ++ [c])))))) = true := by
      simp only [noEdgeWs, Bool.and_eq_true]
      constructor
      · rw [head_append_cons]
        simpa using upper_not_ws (ht1all u0 (by simp))
      · rw [show (u0 :: t1') ++ ((x1 :: w1') ++ (dt ++ ((x2 :: w2') ++
            (kt ++ ((x3 :: w3') ++ [c]))))) =
            ((u0 :: t1') ++ ((x1 :: w1') ++ (dt ++ ((x2 :: w2') ++
              (kt ++ (x3 :: w3')))))) ++ [c] from by simp [List.append_assoc]]
        rw [List.getLast?_concat]
        simpa using hcws
    simp only [contractGrammarL, Bool.and_eq_true]
    constructor
    · rw [show (u0 :: t1') ++ (x1 :: w1') ++ dt ++ (x2 :: w2') ++ kt ++ (x3 :: w3') ++ [c] =
        (u0 :: t1') ++ ((x1 :: w1') ++ (dt ++ ((x2 :: w2') ++
          (kt ++ ((x3 :: w3') ++ [c]))))) from by simp [List.append_assoc]]
      exact hedge
    · rw [show (u0 :: t1') ++ (x1 :: w1') ++ dt ++ (x2 :: w2') ++ kt ++ (x3 :: w3') ++ [c] =
        (u0 :: t1') ++ ((x1 :: w1') ++ (dt ++ ((x2 :: w2') ++
          (kt ++ ((x3 :: w3') ++ [c]))))) from by simp [List.append_assoc]]
      rw [hsplit]
      have hright : isRightToken [c] = true := by
        rcases hcp with rfl | rfl <;> decide
      have hroot : isRootToken (u0 :: t1') = true := by
        simp only [isRootToken, Bool.and_eq_true, Bool.not_eq_true',
          List.isEmpty_eq_false, List.all_eq_true]
        exact ⟨by simp, ht1all⟩
      simp [hroot, hdt, hkt, hright]

/-- The regex core and the spec grammar agree on every string. -/
theorem matchCore_eq_grammar (l : List Char) : matchCore l = contractGrammarL l := by
  cases hg : contractGrammarL l with
  | true => exact (matchCore_iff_shape l).mpr ((grammar_iff_shape l).mp hg)
  | false =>
    cases hm : matchCore l with
    | false => rfl
    | true =>
      exact absurd ((grammar_iff_shape l).mpr ((matchCore_iff_shape l).mp hm)) (by simp [hg])

/-- Invariant of the running minimum loop: either no element improves on
the incoming minimum, or the result is the first element attaining the
final minimum, every earlier element lying strictly farther away. -/
theorem closestFrom_spec (day : ℤ) :
    ∀ (l : List ℤ) (m b : ℤ),
      (closestFrom day m b l = (m, b) ∧ ∀ x ∈ l, m ≤ |x - day|) ∨
      (∃ pre x post, l = pre ++ x :: post ∧
        (closestFrom day m b l).1 = |x - day| ∧ (closestFrom day m b l).2 = x ∧
        |x - day| < m ∧ (∀ y ∈ pre, |x - day| < |y - day|) ∧
        (∀ y ∈ l, (closestFrom day m b l).1 ≤ |y - day|))
  | [], m, b => Or.inl ⟨rfl, by simp⟩
  | e :: rest, m, b => by
    by_cases he : |e - day| < m
    · have hstep : closestFrom day m b (e :: rest) = closestFrom day (|e - day|) e rest := by
        simp [closestFrom, he]
      rcases closestFrom_spec day rest (|e - day|) e with ⟨heq, hmin⟩ | ⟨pre, x, post, hrest, h1, h2, h3, h4, h5⟩
      · refine Or.inr ⟨[], e, rest, by simp, ?_, ?_, he, by simp, ?_⟩
        · rw [hstep, heq]
        · rw [hstep, heq]
        · intro y hy
          rw [hstep, heq]
          simp only [List.mem_cons] at hy
          rcases hy with rfl | hy
          · exact le_refl _
          · exact hmin y hy
      · refine Or.inr ⟨e :: pre, x, post, by simp [hrest], ?_, ?_, h3.trans he, ?_, ?_⟩
        · rw [hstep]; exact h1
        · rw [hstep]; exact h2
        · intro y hy
          simp only [List.mem_cons] at hy
          rcases hy with rfl | hy
          · exact h3
          · exact h4 y hy
        · intro y hy
          rw [hstep]
          simp only [List.mem_cons] at hy
          rcases hy with rfl | hy
          · rw [h1]; exact le_of_lt h3
          · exact h5 y hy
    · have hstep : closestFrom day m b (e :: rest) = closestFrom day m b rest := by
        simp [closestFrom, he]
      push_neg at he
      rcases closestFrom_spec day rest m b with ⟨heq, hmin⟩ | ⟨pre, x, post, hrest, h1, h2, h3, h4, h5⟩
      · refine Or.inl ⟨by rw [hstep, heq], ?_⟩
        intro y hy
        simp only [List.mem_cons] at hy
        rcases hy with rfl | hy
        · exact he
        · exact hmin y hy
      · refine Or.inr ⟨e :: pre, x, post, by simp [hrest], ?_, ?_, h3, ?_, ?_⟩
        · rw [hstep]; exact h1
        · rw [hstep]; exact h2
        · intro y hy
          simp only [List.mem_cons] at hy
          rcases hy with rfl | hy
          · exact lt_of_lt_of_le h3 he
          · exact h4 y hy
        · intro y hy
          rw [hstep]
          simp only [List.mem_cons] at hy
          rcases hy with rfl | hy
          · rw [h1]; exact le_trans (le_of_lt h3) he
          · exact h5 y hy

/-- The closest expiration search on a nonempty list returns the first
element attaining the minimal absolute day distance. -/
theorem closestExp_spec (day e : ℤ) (rest : List ℤ) :
    ∃ pre best post, e :: rest = pre ++ best :: post ∧
      closestExp day (e :: rest) = some best ∧
      (∀ x ∈ e :: rest, |best - day| ≤ |x - day|) ∧
      (∀ y ∈ pre, |best - day| < |y - day|) := by
  rcases closestFrom_spec day rest (|e - day|) e with ⟨heq, hmin⟩ | ⟨pre, x, post, hrest, h1, h2, h3, h4, h5⟩
  · refine ⟨[], e, rest, by simp, ?_, ?_, by simp⟩
    · simp only [closestExp, heq]
    · intro y hy
      simp only [List.mem_cons] at hy
      rcases hy with rfl | hy
      · exact le_refl _
      · exact hmin y hy
  · refine ⟨e :: pre, x, post, by simp [hrest], ?_, ?_, ?_⟩
    · simp only [closestExp, h2]
    · intro y hy
      simp only [List.mem_cons] at hy
      rcases hy with rfl | hy
      · exact le_of_lt h3
      · have h6 := h5 y hy
        rw [h1] at h6
        exact h6
    · intro y hy
      simp only [List.mem_cons] at hy
      rcases hy with rfl | hy
      · exact h3
      · exact h4 y hy

/-- Half even rounding moves a value by at most one half. -/
theorem roundHalfEven_dist (q : ℚ) : |(roundHalfEven q : ℚ) - q| ≤ 1 / 2 := by
  have h0 : (0 : ℚ) ≤ q - (⌊q⌋ : ℚ) := sub_nonneg.mpr (Int.floor_le q)
  have h1 : q - (⌊q⌋ : ℚ) < 1 := by
    have := Int.lt_floor_add_one q
    linarith
  unfold roundHalfEven
  split_ifs with ha hb hc
  · rw [abs_le]
    constructor <;> linarith
  · rw [abs_le]
    push_cast
    constructor <;> linarith
  · rw [abs_le]
    push_neg at ha hb
    constructor <;> linarith
  · rw [abs_le]
    push_neg at ha hb
    push_cast
    constructor <;> linarith

/-- Rounding to two decimals moves a value by at most 1/200. -/
theorem round2_dist (q : ℚ) : |round2 q - q| ≤ 1 / 200 := by
  have h := roundHalfEven_dist (q * 100)
  have heq : round2 q - q = ((roundHalfEven (q * 100) : ℚ) - q * 100) / 100 := by
    unfold round2
    ring
  rw [heq, abs_div]
  rw [show |(100 : ℚ)| = 100 from by norm_num]
  linarith

/-- Summed rounding error over a list. -/
theorem sum_round2_dist (xs : List ℚ) :
    |(xs.map round2).sum - xs.sum| ≤ (xs.length : ℚ) * (1 / 200) := by
  induction xs with
  | nil => simp
  | cons x xs ih =>
    simp only [List.map_cons, List.sum_cons, List.length_cons]
    have h := round2_dist x
    have habs : |round2 x + (xs.map round2).sum - (x + xs.sum)| ≤
        |round2 x - x| + |(xs.map round2).sum - xs.sum| := by
      have : round2 x + (xs.map round2).sum - (x + xs.sum) =
          (round2 x - x) + ((xs.map round2).sum - xs.sum) := by ring
      rw [this]
      exact abs_add _ _
    push_cast
    have hlen : (0 : ℚ) ≤ (xs.length : ℚ) := by positivity
    linarith

/-- Exact percentages over any list summing to a nonzero total add up to
one hundred. -/
theorem sum_div_mul_hundred (xs : List ℚ) (T : ℚ) (hT : T ≠ 0) (hsum : xs.sum = T) :
    (xs.map fun x => x / T * 100).sum = 100 := by
  have hfun : (fun x : ℚ => x / T * 100) = fun x : ℚ => x * (100 / T) := by
    funext x
    ring
  rw [hfun]
  rw [List.sum_map_mul_right]
  simp only [List.map_id']
  rw [hsum]
  field_simp

/-- Either branch of useChain yields exactly one of price and error. -/
theorem useChain_exclusive (symbol : String) (k : ℚ) (t : String) (c : OptChain) :
    (∃ p, useChain symbol k t c = (some p, none)) ∨
    (∃ e, useChain symbol k t c = (none, some e)) := by
  rcases hh : (matchingOptions (sideOf c t) k).head? with - | row
  · refine Or.inr ⟨strikeNotFoundMsg symbol k, ?_⟩
    simp only [useChain, hh]
  · rcases hd : derivePrice row with - | p
    · refine Or.inr ⟨noPriceDataMsg symbol, ?_⟩
      simp only [useChain, hh, hd]
    · refine Or.inl ⟨p * 100, ?_⟩
      simp only [useChain, hh, hd]

/-- When the resolution reaches a chain, the resolver result is the
outcome of using that chain. -/
theorem fetch_eq_useChain (y : Yf) (s u : String) (day : ℤ) (k : ℚ) (t : String)
    (c : OptChain)
    (hopt : is_option_symbol s = true)
    (hparse : _parse_option_symbol s = some (u, day, k, t))
    (hchain : usedChain y u day = some c) :
    fetch_price y s = useChain s k t c := by
  unfold fetch_price
  rw [hopt]
  simp only [if_true]
  simp only [_fetch_option_price, hparse]
  unfold usedChain at hchain
  cases hc : y.chainAt u day with
  | ok c2 =>
    simp only [hc, Option.some_inj] at hchain
    subst hchain
    simp only [hc]
  | error err =>
    simp only [hc] at hchain
    simp only [hc]
    cases he : y.expirations u with
    | error e2 => simp only [he] at hchain; exact absurd hchain (by simp)
    | ok exps =>
      simp only [he] at hchain
      simp only [he]
      cases hemp : exps.isEmpty with
      | true => simp only [hemp, if_true] at hchain; exact absurd hchain (by simp)
      | false =>
        simp only [hemp, Bool.false_eq_true, if_false] at hchain
        simp only [hemp, Bool.false_eq_true, if_false]
        cases hce : closestExp day exps with
        | none => simp only [hce] at hchain; exact absurd hchain (by simp)
        | some ce =>
          simp only [hce] at hchain
          simp only [hce]
          cases hc2 : y.chainAt u ce with
          | error e3 =>
            simp only [hc2, Except.toOption] at hchain
            exact absurd hchain (by simp)
          | ok c3 =>
            simp only [hc2, Except.toOption, Option.some_inj] at hchain
            subst hchain
            simp only [chainOutcome, hc2]

/-- C2: for every input symbol and every behaviour of the market data
collaborator, including raised exceptions, the resolver returns normally
(it is a total function of the collaborator outcomes) and the returned
pair has exactly one of price and error set: a present price with no
error, or an absent price with a present error, never both and never
neither. -/
theorem claim_C2_resolver_total_exclusive (y : Yf) (s : String) :
    (∃ p, fetch_price y s = (some p, none)) ∨
    (∃ e, fetch_price y s = (none, some e)) := by
  by_cases hopt : is_option_symbol s = true
  · simp only [fetch_price, hopt, if_true]
    rcases hp : _parse_option_symbol s with - | ⟨u, day, k, t⟩
    · exact Or.inr ⟨invalidFormatMsg s, by simp only [_fetch_option_price, hp]⟩
    · simp only [_fetch_option_price, hp]
      cases hc : y.chainAt u day with
      | ok c => exact useChain_exclusive s k t c
      | error err =>
        cases he : y.expirations u with
        | error e2 => exact Or.inr ⟨fetchErrMsg s e2, by simp only [he]⟩
        | ok exps =>
          simp only [he]
          cases hemp : exps.isEmpty with
          | true => exact Or.inr ⟨noOptionDataMsg u, by simp only [hemp, if_true]⟩
          | false =>
            simp only [hemp, Bool.false_eq_true, if_false]
            cases hce : closestExp day exps with
            | none => exact Or.inr ⟨noExpirationMsg s, by simp only [hce]⟩
            | some ce =>
              simp only [hce]
              cases hc2 : y.chainAt u ce with
              | ok c2 =>
                have := useChain_exclusive s k t c2
                simpa only [chainOutcome, hc2] using this
              | error e3 =>
                exact Or.inr ⟨fetchErrMsg s e3, by simp only [chainOutcome, hc2]⟩
  · simp only [Bool.not_eq_true] at hopt
    simp only [fetch_price, hopt, Bool.false_eq_true, if_false]
    cases hh : y.history s with
    | error e => exact Or.inr ⟨e, by simp only [_fetch_stock_price, hh]⟩
    | ok closes =>
      cases hl : closes.getLast? with
      | some cl => exact Or.inl ⟨cl, by simp only [_fetch_stock_price, hh, hl]⟩
      | none =>
        exact Or.inr ⟨noStockDataMsg s, by simp only [_fetch_stock_price, hh, hl]⟩

/-- C3 counterexample: a grammar conforming contract string with one
trailing newline appended is classified CONTRACT by the source regex
although it does not match the exact four token grammar, refuting the
claimed equivalence. -/
theorem claim_C3_counterexample :
    is_option_symbol "AAPL 02/20/2026 150.50 P\n" = true ∧
    contractGrammar "AAPL 02/20/2026 150.50 P\n" = false := by
  constructor <;> decide

/-- C3 amended: classify returns CONTRACT exactly for the strings of the
four token grammar, or such a string with a single newline appended (the
Python dollar anchor admits one final newline). -/
theorem claim_C3_amended_classifier (s : String) :
    is_option_symbol s = true ↔
      (contractGrammar s = true ∨
        ∃ t : String, s = t ++ "\n" ∧ contractGrammar t = true) := by
  unfold is_option_symbol contractGrammar
  rw [Bool.or_eq_true, matchCore_eq_grammar]
  constructor
  · intro h
    rcases h with h | h
    · exact Or.inl h
    · rcases hgl : s.data.getLast? with - | c
      · rw [hgl] at h
        simp at h
      · rw [hgl] at h
        simp only [Bool.and_eq_true, decide_eq_true_eq] at h
        obtain ⟨rfl, hm⟩ := h
        refine Or.inr ⟨String.mk s.data.dropLast, ?_, ?_⟩
        · have hdl : s.data.dropLast ++ ['\n'] = s.data :=
            List.dropLast_append_getLast? '\n' hgl
          have hdata : (String.mk s.data.dropLast ++ "\n").data = s.data := by
            rw [String.data_append]
            exact hdl
          exact (String.ext hdata).symm
        · rw [matchCore_eq_grammar] at hm
          exact hm
  · intro h
    rcases h with h | ⟨t, rfl, ht⟩
    · exact Or.inl h
    · right
      have hdata : (t ++ "\n").data = t.data ++ ['\n'] := String.data_append t "\n"
      rw [hdata]
      have h1 : (t.data ++ ['\n']).getLast? = some '\n' := by
        rw [getLast?_append_cons]
        rfl
      have h2 : (t.data ++ ['\n']).dropLast = t.data := List.dropLast_concat
      simp only [h1, h2]
      simp [matchCore_eq_grammar, ht]

/-- C10: the string QQQ 01/15/2027 380.00 C followed by a trailing
newline does not match the exact four token grammar, yet the classifier
returns CONTRACT, because the regex dollar anchor matches immediately
before a string final newline. -/
theorem claim_C10_newline_classified :
    contractGrammar "QQQ 01/15/2027 380.00 C\n" = false ∧
    is_option_symbol "QQQ 01/15/2027 380.00 C\n" = true := by
  constructor <;> decide

/-- C7 counterexample: the parser accepts the right token X instead of
failing closed: parsing QQQ 01/15/2027 380.00 X succeeds, returning X as
the right token, which the resolver would route to the puts side. -/
theorem claim_C7_counterexample :
    _parse_option_symbol "QQQ 01/15/2027 380.00 X" =
      some ("QQQ", daysFromCivil 2027 1 15, 380, "X") ∧
    (∀ c : OptChain, sideOf c "X" = c.puts) := by
  constructor
  · have h1 : pySplit "QQQ 01/15/2027 380.00 X".data =
        ["QQQ".data, "01/15/2027".data, "380.00".data, ['X']] := by decide
    have h2 : parseDateMDY "01/15/2027".data = some (daysFromCivil 2027 1 15) := by decide
    have h3 : pyFloat "380.00".data = some 380 := by with_unfolding_all decide
    simp only [_parse_option_symbol, h1, h2, h3]
    decide
  · intro c
    simp [sideOf]

/-- C7 amended: the parser uppercases the right token and accepts it
without validation (no failure for tokens other than C and P), and the
resolver routes the token C to the calls side and every other token,
silently, to the puts side. -/
theorem claim_C7_amended_right_token (s : String) (u d k t : List Char)
    (day : ℤ) (strike : ℚ)
    (hsplit : pySplit s.data = [u, d, k, t])
    (hdate : parseDateMDY d = some day)
    (hfloat : pyFloat k = some strike) :
    _parse_option_symbol s =
      some (String.mk u, day, strike, String.mk (t.map Char.toUpper)) ∧
    (∀ c : OptChain, ∀ ot : String, ot ≠ "C" → sideOf c ot = c.puts) ∧
    (∀ c : OptChain, sideOf c "C" = c.calls) := by
  refine ⟨?_, ?_, fun c => by simp [sideOf]⟩
  · simp only [_parse_option_symbol, hsplit, hdate, hfloat]
  · intro c ot hot
    simp [sideOf, hot]

/-- C7 witness: the amended statement evaluated on the lowercase right
token x, which parses successfully to X. -/
theorem claim_C7_witness :
    _parse_option_symbol "QQQ 01/15/2027 380.00 x" =
      some ("QQQ", daysFromCivil 2027 1 15, 380, "X") ∧
    (∀ c : OptChain, ∀ ot : String, ot ≠ "C" → sideOf c ot = c.puts) ∧
    (∀ c : OptChain, sideOf c "C" = c.calls) := by
  have h := claim_C7_amended_right_token "QQQ 01/15/2027 380.00 x"
    "QQQ".data "01/15/2027".data "380.00".data ['x']
    (daysFromCivil 2027 1 15) 380
    (by decide) (by decide) (by with_unfolding_all decide)
  exact h

/-- C4 counterexample: a matched record whose last traded price is
present but negative (hence not strictly positive) while bid and ask are
both strictly positive; the claim prescribes the midpoint 3/2, but the
source keeps the negative last price as the derived unit price. -/
theorem claim_C4_counterexample :
    derivePrice ⟨380, some (-1), 1, 2⟩ = some (-1) ∧
    ¬(∃ p, (OptionRow.mk 380 (some (-1)) 1 2).lastPrice = some p ∧ 0 < p) ∧
    0 < (OptionRow.mk 380 (some (-1)) 1 2).bid ∧
    0 < (OptionRow.mk 380 (some (-1)) 1 2).ask ∧
    derivePrice ⟨380, some (-1), 1, 2⟩ ≠
      some (((OptionRow.mk 380 (some (-1)) 1 2).bid +
        (OptionRow.mk 380 (some (-1)) 1 2).ask) / 2) := by
  refine ⟨by with_unfolding_all decide, ?_, by norm_num, by norm_num, ?_⟩
  · rintro ⟨p, hp, hpos⟩
    simp only [Option.some_inj] at hp
    rw [← hp] at hpos
    norm_num at hpos
  · have h : derivePrice ⟨380, some (-1), 1, 2⟩ = some (-1) := by
      with_unfolding_all decide
    rw [h]
    simp only [Option.some_inj]
    norm_num

/-- C4 amended: the derivation ladder of the source, with clause one
conditioned on a present and nonzero (rather than strictly positive)
last traded price; the remaining clauses are as claimed, and a matched
row with no derivable price yields the no price data error. -/
theorem claim_C4_amended_price_ladder (row : OptionRow) :
    (∀ p, row.lastPrice = some p → p ≠ 0 → derivePrice row = some p) ∧
    ((row.lastPrice = none ∨ row.lastPrice = some 0) → 0 < row.bid → 0 < row.ask →
      derivePrice row = some ((row.bid + row.ask) / 2)) ∧
    ((row.lastPrice = none ∨ row.lastPrice = some 0) → 0 < row.bid → ¬0 < row.ask →
      derivePrice row = some row.bid) ∧
    ((row.lastPrice = none ∨ row.lastPrice = some 0) → ¬0 < row.bid → 0 < row.ask →
      derivePrice row = some row.ask) ∧
    ((row.lastPrice = none ∨ row.lastPrice = some 0) → ¬0 < row.bid → ¬0 < row.ask →
      derivePrice row = none) ∧
    (∀ (symbol : String) (k : ℚ) (t : String) (c : OptChain) (row2 : OptionRow),
      (matchingOptions (sideOf c t) k).head? = some row2 →
      derivePrice row2 = none →
      useChain symbol k t c = (none, some (noPriceDataMsg symbol))) := by
  refine ⟨?_, ?_, ?_, ?_, ?_, ?_⟩
  · intro p hp hne
    simp [derivePrice, hp, hne]
  · intro hl hb ha
    rcases hl with hl | hl <;> simp [derivePrice, hl, fallbackBA, hb, ha]
  · intro hl hb ha
    rcases hl with hl | hl <;> simp [derivePrice, hl, fallbackBA, hb, ha]
  · intro hl hb ha
    rcases hl with hl | hl <;> simp [derivePrice, hl, fallbackBA, hb, ha]
  · intro hl hb ha
    rcases hl with hl | hl <;> simp [derivePrice, hl, fallbackBA, hb, ha]
  · intro symbol k t c row2 h1 h2
    simp only [useChain, h1, h2]

/-- C4 witness: the amended ladder evaluated on the three anchor rows of
the spec (midpoint, single sided ask, no data) and on a resolver call
whose matched row carries no price data. -/
theorem claim_C4_witness :
    derivePrice ⟨380, some 0, 1, 6 / 5⟩ = some (11 / 10) ∧
    derivePrice ⟨380, some 0, 0, 2⟩ = some 2 ∧
    derivePrice ⟨380, some 0, 0, 0⟩ = none ∧
    useChain "S" 380 "C" ⟨[⟨380, some 0, 0, 0⟩], []⟩ =
      (none, some (noPriceDataMsg "S")) := by
  have hhead : (matchingOptions (sideOf (OptChain.mk [⟨380, some 0, 0, 0⟩] []) "C")
      380).head? = some ⟨380, some 0, 0, 0⟩ := by
    have h : |(380 : ℚ) - 380| < 1 / 100 := by rw [abs_sub_lt_iff]; norm_num
    simp only [matchingOptions, sideOf, if_pos rfl, List.filter]
    rw [decide_eq_true h]
    rfl
  have hd1 := (claim_C4_amended_price_ladder ⟨380, some 0, 1, 6 / 5⟩).2.1
    (Or.inr rfl) (by norm_num) (by norm_num)
  have hd2 := (claim_C4_amended_price_ladder ⟨380, some 0, 0, 2⟩).2.2.2.1
    (Or.inr rfl) (by norm_num) (by norm_num)
  have hd3 := (claim_C4_amended_price_ladder ⟨380, some 0, 0, 0⟩).2.2.2.2.1
    (Or.inr rfl) (by norm_num) (by norm_num)
  have hd4 := (claim_C4_amended_price_ladder ⟨380, some 0, 0, 0⟩).2.2.2.2.2
    "S" 380 "C" ⟨[⟨380, some 0, 0, 0⟩], []⟩ ⟨380, some 0, 0, 0⟩ hhead hd3
  refine ⟨?_, ?_, hd3, hd4⟩
  · rw [hd1]
    norm_num
  · rw [hd2]

/-- C1: whenever a derivative contract symbol resolves to a matched
contract row with a usable per unit price p, the unit price returned by
the resolver is p multiplied by the contract multiplier 100. -/
theorem claim_C1_contract_multiplier (y : Yf) (s u : String) (day : ℤ) (k : ℚ)
    (t : String) (c : OptChain) (row : OptionRow) (p : ℚ)
    (hopt : is_option_symbol s = true)
    (hparse : _parse_option_symbol s = some (u, day, k, t))
    (hchain : usedChain y u day = some c)
    (hrow : (matchingOptions (sideOf c t) k).head? = some row)
    (hprice : derivePrice row = some p) :
    fetch_price y s = (some (p * 100), none) := by
  rw [fetch_eq_useChain y s u day k t c hopt hparse hchain]
  simp only [useChain, hrow, hprice]

/-- C1 witness: a call contract at strike 380 whose chain row has last
price 1.10 resolves to unit price 110. -/
theorem claim_C1_witness :
    fetch_price wYf1 "QQQ 01/15/2027 380.00 C" = (some 110, none) := by
  have h1 : pySplit "QQQ 01/15/2027 380.00 C".data =
      ["QQQ".data, "01/15/2027".data, "380.00".data, ['C']] := by decide
  have h2 : parseDateMDY "01/15/2027".data = some (daysFromCivil 2027 1 15) := by decide
  have h3 : pyFloat "380.00".data = some 380 := by with_unfolding_all decide
  have hparse : _parse_option_symbol "QQQ 01/15/2027 380.00 C" =
      some ("QQQ", daysFromCivil 2027 1 15, 380, "C") := by
    simp only [_parse_option_symbol, h1, h2, h3]
    decide
  have hrow : (matchingOptions (sideOf wChain1 "C") 380).head? =
      some ⟨380, some (11 / 10), 0, 0⟩ := by
    have h : |(380 : ℚ) - 380| < 1 / 100 := by rw [abs_sub_lt_iff]; norm_num
    simp only [matchingOptions, sideOf, wChain1, if_pos rfl, List.filter]
    rw [decide_eq_true h]
    rfl
  have hprice : derivePrice ⟨380, some (11 / 10), 0, 0⟩ = some (11 / 10) := by
    with_unfolding_all decide
  have h := claim_C1_contract_multiplier wYf1 "QQQ 01/15/2027 380.00 C" "QQQ"
    (daysFromCivil 2027 1 15) 380 "C" wChain1 ⟨380, some (11 / 10), 0, 0⟩ (11 / 10)
    (by decide) hparse rfl hrow hprice
  rw [h]
  norm_num

/-- C8: within the selected side of the used chain, a provider row is in
the matched set exactly when its strike lies strictly within 0.01 of the
requested strike; the anchors 380.004 (matched) and 380.02 (rejected)
against a requested 380 hold; and when no row matches, the resolver
yields the error naming the symbol and the strike. -/
theorem claim_C8_strike_tolerance (y : Yf) (s u : String) (day : ℤ) (k : ℚ)
    (t : String) (c : OptChain)
    (hopt : is_option_symbol s = true)
    (hparse : _parse_option_symbol s = some (u, day, k, t))
    (hchain : usedChain y u day = some c) :
    (∀ r : OptionRow, r ∈ matchingOptions (sideOf c t) k ↔
      r ∈ sideOf c t ∧ |r.strike - k| < 1 / 100) ∧
    (matchingOptions [⟨380004 / 1000, none, 0, 0⟩] 380 =
        [⟨380004 / 1000, none, 0, 0⟩] ∧
      matchingOptions [⟨38002 / 100, none, 0, 0⟩] 380 = []) ∧
    (matchingOptions (sideOf c t) k = [] →
      fetch_price y s = (none, some (strikeNotFoundMsg s k))) := by
  refine ⟨?_, ⟨?_, ?_⟩, ?_⟩
  · intro r
    simp [matchingOptions, List.mem_filter]
  · have h : |(380004 / 1000 : ℚ) - 380| < 1 / 100 := by rw [abs_sub_lt_iff]; norm_num
    simp only [matchingOptions, List.filter]
    rw [decide_eq_true h]
  · have h : ¬(|(38002 / 100 : ℚ) - 380| < 1 / 100) := by
      rw [abs_sub_lt_iff]; push_neg; norm_num
    simp only [matchingOptions, List.filter]
    rw [decide_eq_false h]
  · intro hempty
    rw [fetch_eq_useChain y s u day k t c hopt hparse hchain]
    simp only [useChain, hempty, List.head?]

/-- C8 witness: against a chain whose only call row has strike 500, the
request at strike 380 matches nothing and the resolver returns the
strike not found error. -/
theorem claim_C8_witness :
    (∀ r : OptionRow, r ∈ matchingOptions (sideOf wChain8 "C") 380 ↔
      r ∈ sideOf wChain8 "C" ∧ |r.strike - 380| < 1 / 100) ∧
    (matchingOptions [⟨380004 / 1000, none, 0, 0⟩] 380 =
        [⟨380004 / 1000, none, 0, 0⟩] ∧
      matchingOptions [⟨38002 / 100, none, 0, 0⟩] 380 = []) ∧
    fetch_price wYf8 "QQQ 01/15/2027 380.00 C" =
      (none, some (strikeNotFoundMsg "QQQ 01/15/2027 380.00 C" 380)) := by
  have h1 : pySplit "QQQ 01/15/2027 380.00 C".data =
      ["QQQ".data, "01/15/2027".data, "380.00".data, ['C']] := by decide
  have h2 : parseDateMDY "01/15/2027".data = some (daysFromCivil 2027 1 15) := by decide
  have h3 : pyFloat "380.00".data = some 380 := by with_unfolding_all decide
  have hparse : _parse_option_symbol "QQQ 01/15/2027 380.00 C" =
      some ("QQQ", daysFromCivil 2027 1 15, 380, "C") := by
    simp only [_parse_option_symbol, h1, h2, h3]
    decide
  have h := claim_C8_strike_tolerance wYf8 "QQQ 01/15/2027 380.00 C" "QQQ"
    (daysFromCivil 2027 1 15) 380 "C" wChain8 (by decide) hparse rfl
  refine ⟨h.1, h.2.1, h.2.2 ?_⟩
  have hm : ¬(|(500 : ℚ) - 380| < 1 / 100) := by
    rw [abs_sub_lt_iff]; push_neg; norm_num
  simp only [matchingOptions, sideOf, wChain8, if_pos rfl, List.filter]
  rw [decide_eq_false hm]

/-- C5: when the provider has no chain at the exact requested day, the
resolver with an empty expiration list yields the no option data error,
and with a nonempty list it selects the expiration of minimum absolute
day distance, ties broken by the first in provider order, and proceeds
with the chain at that expiration. -/
theorem claim_C5_expiration_fallback (y : Yf) (s u : String) (day : ℤ) (k : ℚ)
    (t : String) (err : String)
    (hparse : _parse_option_symbol s = some (u, day, k, t))
    (hchainerr : y.chainAt u day = Except.error err) :
    (y.expirations u = Except.ok [] →
      _fetch_option_price y s = (none, some (noOptionDataMsg u))) ∧
    (∀ (e : ℤ) (rest : List ℤ), y.expirations u = Except.ok (e :: rest) →
      ∃ pre best post, e :: rest = pre ++ best :: post ∧
        closestExp day (e :: rest) = some best ∧
        (∀ x ∈ e :: rest, |best - day| ≤ |x - day|) ∧
        (∀ x ∈ pre, |best - day| < |x - day|) ∧
        _fetch_option_price y s = chainOutcome y s u k t best) := by
  constructor
  · intro hexp
    simp only [_fetch_option_price, hparse, hchainerr, hexp, List.isEmpty_nil, if_true]
  · intro e rest hexp
    obtain ⟨pre, best, post, hdec, hclosest, hmin, hfirst⟩ := closestExp_spec day e rest
    refine ⟨pre, best, post, hdec, hclosest, hmin, hfirst, ?_⟩
    simp only [_fetch_option_price, hparse, hchainerr, hexp, List.isEmpty_cons,
      Bool.false_eq_true, if_false, hclosest]

/-- C5 witness: requested expiration 2027-01-15 with available
expirations 2027-01-08 and 2027-01-22, both at day distance seven: the
first listed expiration is selected. -/
theorem claim_C5_witness :
    ∃ pre best post,
      ([daysFromCivil 2027 1 8, daysFromCivil 2027 1 22] : List ℤ) =
        pre ++ best :: post ∧
      closestExp (daysFromCivil 2027 1 15)
        [daysFromCivil 2027 1 8, daysFromCivil 2027 1 22] = some best ∧
      (∀ x ∈ ([daysFromCivil 2027 1 8, daysFromCivil 2027 1 22] : List ℤ),
        |best - daysFromCivil 2027 1 15| ≤ |x - daysFromCivil 2027 1 15|) ∧
      (∀ x ∈ pre, |best - daysFromCivil 2027 1 15| < |x - daysFromCivil 2027 1 15|) ∧
      _fetch_option_price wYf5 "QQQ 01/15/2027 380.00 C" =
        chainOutcome wYf5 "QQQ 01/15/2027 380.00 C" "QQQ" 380 "C" best := by
  have h1 : pySplit "QQQ 01/15/2027 380.00 C".data =
      ["QQQ".data, "01/15/2027".data, "380.00".data, ['C']] := by decide
  have h2 : parseDateMDY "01/15/2027".data = some (daysFromCivil 2027 1 15) := by decide
  have h3 : pyFloat "380.00".data = some 380 := by with_unfolding_all decide
  have hparse : _parse_option_symbol "QQQ 01/15/2027 380.00 C" =
      some ("QQQ", daysFromCivil 2027 1 15, 380, "C") := by
    simp only [_parse_option_symbol, h1, h2, h3]
    decide
  exact (claim_C5_expiration_fallback wYf5 "QQQ 01/15/2027 380.00 C" "QQQ"
    (daysFromCivil 2027 1 15) 380 "C" "no chain at date" hparse rfl).2
    (daysFromCivil 2027 1 8) [daysFromCivil 2027 1 22] rfl

/-- C6 counterexample: a single retained holding of zero shares gives a
zero total; the Percentage column of the app aggregation then carries
NaN (the 0/0 of the unconditional pandas division), not the zero the
claim prescribes. -/
theorem claim_C6_counterexample :
    totalValue [⟨"AAPL", 0⟩] wPrices6 = 0 ∧
    percentageCol [⟨"AAPL", 0⟩] wPrices6 = [PandasVal.nan] ∧
    PandasVal.nan ≠ PandasVal.num 0 := by
  have hr : retainedRows [⟨"AAPL", 0⟩] wPrices6 = [(⟨"AAPL", 0⟩, 150)] := by
    simp [retainedRows, wPrices6]
  have ht : totalValue [⟨"AAPL", 0⟩] wPrices6 = 0 := by
    simp [totalValue, hr, currentValue]
  refine ⟨ht, ?_, by simp⟩
  simp only [percentageCol, hr, ht, List.map_cons, List.map_nil]
  have hcv : currentValue ((⟨"AAPL", 0⟩ : Holding), (150 : ℚ)) = 0 := by
    simp [currentValue]
  rw [hcv]
  simp [pandasDiv, pandasMul, pandasRound2]

/-- C6 amended: when the total is zero the app aggregation still
performs the division under IEEE semantics: each retained row whose
value is zero gets NaN, a positive value gets positive infinity and a
negative value negative infinity; no exception is raised (the embedding
is total).  The grouped percentage of the AI analyzer is the one that is
defined as zero on a zero total. -/
theorem claim_C6_amended_zero_total (holdings : List Holding)
    (prices : String → Option ℚ)
    (hT : totalValue holdings prices = 0) :
    percentageCol holdings prices = (retainedRows holdings prices).map (fun hp =>
      if currentValue hp = 0 then PandasVal.nan
      else if 0 < currentValue hp then PandasVal.posInf else PandasVal.negInf) ∧
    (∀ v : ℚ, groupPct v 0 = 0) := by
  constructor
  · unfold percentageCol
    refine List.map_eq_map_iff.mpr ?_
    intro hp hmem
    rw [hT]
    by_cases h0 : currentValue hp = 0
    · simp [pandasDiv, h0, pandasMul, pandasRound2]
    · by_cases hpos : 0 < currentValue hp
      · simp [pandasDiv, h0, hpos, pandasMul, pandasRound2]
      · simp [pandasDiv, h0, hpos, pandasMul, pandasRound2]
  · intro v
    simp [groupPct]

/-- C6 witness: the amended statement evaluated at the zero share
holding with a zero total. -/
theorem claim_C6_witness :
    percentageCol [⟨"AAPL", 0⟩] wPrices6 =
      (retainedRows [⟨"AAPL", 0⟩] wPrices6).map (fun hp =>
        if currentValue hp = 0 then PandasVal.nan
        else if 0 < currentValue hp then PandasVal.posInf else PandasVal.negInf) ∧
    (∀ v : ℚ, groupPct v 0 = 0) := by
  refine claim_C6_amended_zero_total [⟨"AAPL", 0⟩] wPrices6 ?_
  have hr : retainedRows [⟨"AAPL", 0⟩] wPrices6 = [(⟨"AAPL", 0⟩, 150)] := by
    simp [retainedRows, wPrices6]
  simp [totalValue, hr, currentValue]

/-- C9: with a strictly positive total over a nonempty retained set,
every Percentage entry is a finite number and the percentages sum to one
hundred within 0.01 per row. -/
theorem claim_C9_percentage_sum (holdings : List Holding)
    (prices : String → Option ℚ)
    (_hne : retainedRows holdings prices ≠ [])
    (hpos : 0 < totalValue holdings prices) :
    (∀ v ∈ percentageCol holdings prices, v.isNum = true) ∧
    |((percentageCol holdings prices).map PandasVal.val).sum - 100| ≤
      ((percentageCol holdings prices).length : ℚ) * (1 / 100) := by
  have hT : totalValue holdings prices ≠ 0 := ne_of_gt hpos
  have hcol : percentageCol holdings prices =
      (retainedRows holdings prices).map (fun hp =>
        PandasVal.num (round2 (currentValue hp / totalValue holdings prices * 100))) := by
    unfold percentageCol
    refine List.map_eq_map_iff.mpr ?_
    intro hp hmem
    simp [pandasDiv, hT, pandasMul, pandasRound2]
  constructor
  · rw [hcol]
    intro v hv
    simp only [List.mem_map] at hv
    obtain ⟨hp, -, rfl⟩ := hv
    rfl
  · rw [hcol]
    have hval : ((retainedRows holdings prices).map (fun hp =>
        PandasVal.num (round2 (currentValue hp / totalValue holdings prices * 100)))).map
          PandasVal.val =
        (((retainedRows holdings prices).map currentValue).map
          (fun x => x / totalValue holdings prices * 100)).map round2 := by
      rw [List.map_map, List.map_map, List.map_map]
      rfl
    rw [hval]
    have hsum : (((retainedRows holdings prices).map currentValue).map
        (fun x => x / totalValue holdings prices * 100)).sum = 100 :=
      sum_div_mul_hundred ((retainedRows holdings prices).map currentValue)
        (totalValue holdings prices) hT rfl
    have hdist := sum_round2_dist (((retainedRows holdings prices).map currentValue).map
      (fun x => x / totalValue holdings prices * 100))
    rw [hsum] at hdist
    simp only [List.length_map] at hdist ⊢
    have hn : (0 : ℚ) ≤ ((retainedRows holdings prices).length : ℚ) := by positivity
    linarith

/-- C9 witness: two holdings worth 1 and 2 give percentages 33.33 and
66.67, summing to 100 exactly, within the stated tolerance. -/
theorem claim_C9_witness :
    (∀ v ∈ percentageCol [⟨"A", 1⟩, ⟨"B", 1⟩] wPrices9, v.isNum = true) ∧
    |((percentageCol [⟨"A", 1⟩, ⟨"B", 1⟩] wPrices9).map PandasVal.val).sum - 100| ≤
      ((percentageCol [⟨"A", 1⟩, ⟨"B", 1⟩] wPrices9).length : ℚ) * (1 / 100) := by
  have hr : retainedRows [⟨"A", 1⟩, ⟨"B", 1⟩] wPrices9 =
      [(⟨"A", 1⟩, 1), (⟨"B", 1⟩, 2)] := by
    simp [retainedRows, wPrices9]
  refine claim_C9_percentage_sum [⟨"A", 1⟩, ⟨"B", 1⟩] wPrices9 ?_ ?_
  · rw [hr]
    simp
  · rw [show totalValue [⟨"A", 1⟩, ⟨"B", 1⟩] wPrices9 =
      ((retainedRows [⟨"A", 1⟩, ⟨"B", 1⟩] wPrices9).map currentValue).sum from rfl, hr]
    simp [currentValue]
    norm_num
